import Mathlib

/-!
CloudNote: credential broker (`server.js`) and note client (`script.js`).

A shallow embedding of the two source files.  JavaScript strings are lists of
characters; every string operation used by the code (concatenation,
`startsWith`, `replace`, `split`, `trim`, `padStart`) acts position by position,
so it is embedded as the same operation on lists.  The AWS signer, the storage
service and the browser are not part of the repository: they enter the
embedding as parameters or as small interface models, each marked as such.
-/

namespace CloudNote

/-- A JavaScript string. -/
abbrev Str := List Char

/-! ## server.js -/

/-- A value that is present in `req.query`: a string, or what Express builds
from a repeated or bracketed parameter (an array or an object), kept with the
string that string conversion makes of it (`?key=a&key=b` gives the array
`['a', 'b']`, whose string is `a,b`). -/
inductive QueryValue where
  | str (s : Str)
  | other (text : Str)
deriving DecidableEq, Repr

/-- A value read from `req.query`: `undefined` (`none`) or a value that is
present. -/
abbrev Query := Option QueryValue

/-- JavaScript `!x` for a query value: `undefined` and `""` are falsy, an array
or an object is not. -/
def falsy : Query → Bool
  | none => true
  | some (.str s) => s.isEmpty
  | some (.other _) => false

/-- String conversion inside a template literal. -/
def toStr : Query → Str
  | none => "undefined".toList
  | some (.str s) => s
  | some (.other text) => text

/-- JavaScript `s.startsWith(p)`. -/
def startsWith (s p : Str) : Bool := p.isPrefixOf s

/-- JavaScript `s.replace(pat, rep)` for a string pattern: the first occurrence of `pat`
(searching from the left) is replaced.  Only used with a replacement that holds
no `$`. -/
def replace (pat rep : Str) : Str → Str
  | [] => if pat.isPrefixOf [] then rep else []
  | c :: cs =>
    if pat.isPrefixOf (c :: cs) then rep ++ (c :: cs).drop pat.length
    else c :: replace pat rep cs

/-- The S3 commands the server builds. -/
inductive S3Command where
  | PutObjectCommand (Bucket : Option Str) (Key : Str) (ContentType : Str)
  | ListObjectsV2Command (Bucket : Option Str) (Prefix : Str)
  | GetObjectCommand (Bucket : Option Str) (Key : Str)
deriving DecidableEq, Repr

/-- One call of `getSignedUrl(s3, cmd, { expiresIn })`. -/
structure SignCall where
  cmd : S3Command
  expiresIn : Nat
deriving DecidableEq, Repr

/-- The signer: it answers with a URL or throws. -/
abbrev Signer := S3Command → Nat → Except Unit Str

/-- One entry of `out.Contents`. -/
structure S3Object where
  Key : Str
deriving DecidableEq, Repr

/-- The answer to `s3.send(new ListObjectsV2Command(..))`. -/
structure ListOutput where
  Contents : Option (List S3Object)
deriving DecidableEq, Repr

/-- The S3 client for the list call: it answers or throws. -/
abbrev Sender := S3Command → Except Unit ListOutput

/-- One element of the array answered by `/api/list-files`. -/
structure FileEntry where
  name : Str
  key : Str
deriving DecidableEq, Repr

/-- The JSON bodies the three handlers send. -/
inductive Body where
  | error (error : Str)
  | upload (uploadUrl key : Str)
  | files (files : List FileEntry)
  | download (downloadUrl : Str)
deriving DecidableEq, Repr

/-- The `uploadUrl` field of a body, when it has one. -/
def Body.uploadUrl : Body → Option Str
  | .upload u _ => some u
  | _ => none

/-- The `key` field of a body, when it has one. -/
def Body.key : Body → Option Str
  | .upload _ k => some k
  | _ => none

/-- The array of entries of a body, when it is one. -/
def Body.entries : Body → Option (List FileEntry)
  | .files l => some l
  | _ => none

/-- The `downloadUrl` field of a body, when it has one. -/
def Body.downloadUrl : Body → Option Str
  | .download u => some u
  | _ => none

/-- An HTTP response: `res.status(n).json(body)`; `res.json(body)` alone is 200. -/
structure Response where
  status : Nat
  body : Body
deriving DecidableEq, Repr

/-- What one run of a handler does: the response it sends and the signer calls
it made, in order. -/
structure Outcome where
  response : Response
  signed : List SignCall
deriving DecidableEq, Repr

/-- Handler of `GET /api/s3-upload-url` (server.js 28-45). -/
def s3UploadUrl (BUCKET : Option Str) (getSignedUrl : Signer)
    (fileName userId : Query) : Outcome :=
  if falsy fileName || falsy userId then
    ⟨⟨400, .error "Missing fileName or userId".toList⟩, []⟩
  else
    let key := toStr userId ++ "/".toList ++ toStr fileName
    let cmd := S3Command.PutObjectCommand BUCKET key "text/plain".toList
    match getSignedUrl cmd 3600 with
    | .ok uploadUrl => ⟨⟨200, .upload uploadUrl key⟩, [⟨cmd, 3600⟩]⟩
    | .error _ => ⟨⟨500, .error "failed to generate upload url".toList⟩, [⟨cmd, 3600⟩]⟩

/-- Handler of `GET /api/list-files` (server.js 48-66). -/
def listFiles (BUCKET : Option Str) (send : Sender) (userId : Query) : Response :=
  if falsy userId then ⟨400, .error "Missing userId".toList⟩
  else
    match send (.ListObjectsV2Command BUCKET (toStr userId ++ "/".toList)) with
    | .ok out =>
      let files := (out.Contents.getD []).map fun o =>
        { name := replace (toStr userId ++ "/".toList) [] o.Key, key := o.Key : FileEntry }
      ⟨200, .files files⟩
    | .error _ => ⟨500, .error "failed to list files".toList⟩

/-- Handler of `GET /api/get-download-url` (server.js 69-81).  Only a string has
`startsWith`: on any other present `key` the call at line 73 throws a
`TypeError` and the `catch` answers 500. -/
def getDownloadUrl (BUCKET : Option Str) (getSignedUrl : Signer)
    (key userId : Query) : Outcome :=
  if falsy key || falsy userId then
    ⟨⟨400, .error "Missing key or userId".toList⟩, []⟩
  else
    match key with
    | some (.str k) =>
      if !startsWith k (toStr userId ++ "/".toList) then
        ⟨⟨403, .error "Forbidden".toList⟩, []⟩
      else
        let cmd := S3Command.GetObjectCommand BUCKET k
        match getSignedUrl cmd 3600 with
        | .ok url => ⟨⟨200, .download url⟩, [⟨cmd, 3600⟩]⟩
        | .error _ =>
          ⟨⟨500, .error "failed to generate download url".toList⟩, [⟨cmd, 3600⟩]⟩
    | _ => ⟨⟨500, .error "failed to generate download url".toList⟩, []⟩

/-- The most keys one `ListObjectsV2` reply holds. -/
def maxKeys : Nat := 1000

/-- The storage service, which is not part of the repository, at its interface,
for the keys `stored` in the order in which the service lists them: one
`ListObjectsV2` call is answered with the stored keys that have the requested
prefix, in that order, up to `maxKeys` of them (the rest is for further calls
with a continuation token), and `Contents` is left out when there is none. -/
def s3ListObjectsV2 (stored : List Str) : Sender
  | .ListObjectsV2Command _ pre =>
    let hits := (stored.filter fun k => startsWith k pre).take maxKeys
    .ok ⟨if hits.isEmpty then none else some (hits.map S3Object.mk)⟩
  | _ => .error ()

/-! ## script.js: identity, save, open -/

/-- The code points JavaScript counts as WhiteSpace or LineTerminator, the ones
`trim` removes. -/
def isWhiteSpace (c : Char) : Bool :=
  let n := c.toNat
  n = 0x09 || n = 0x0A || n = 0x0B || n = 0x0C || n = 0x0D || n = 0x20 || n = 0xA0 ||
  n = 0x1680 || (0x2000 ≤ n && n ≤ 0x200A) || n = 0x2028 || n = 0x2029 || n = 0x202F ||
  n = 0x205F || n = 0x3000 || n = 0xFEFF

/-- JavaScript `s.trim()`. -/
def trim (s : Str) : Str :=
  ((s.dropWhile isWhiteSpace).reverse.dropWhile isWhiteSpace).reverse

/-- JavaScript `s.padStart(n, pad)`. -/
def padStart (n : Nat) (pad : Str) (s : Str) : Str :=
  if n ≤ s.length || pad.isEmpty then s
  else ((List.replicate (n - s.length) pad).flatten.take (n - s.length)) ++ s

/-- JavaScript `String(n)` for a non-negative integer. -/
def ofNat (n : Nat) : Str := (Nat.repr n).toList

/-- JavaScript `s.split(sep)` for a one-character separator. -/
def split (sep : Char) : Str → List Str
  | [] => [[]]
  | c :: cs =>
    if c = sep then [] :: split sep cs
    else
      match split sep cs with
      | [] => [[c]]
      | seg :: rest => (c :: seg) :: rest

/-- JavaScript `!x` for a variable that holds `null` (or `undefined`) or a
string. -/
def absent : Option Str → Bool
  | none => true
  | some s => s.isEmpty

/-- JavaScript `x || d` for a string `x`. -/
def orElse (x d : Str) : Str := if x.isEmpty then d else x

/-- What the client does to the outside, in order. -/
inductive Effect where
  | alert (message : Str)
  | prompt (message : Str)
  | storageSet (userId : Str)
  | fetchUploadUrl (fileName userId : Str)
  | fetchPut (url contentType body : Str)
  | fetchListFiles (userId : Str)
  | fetchDownloadUrl (key userId : Str)
  | fetchGet (url : Str)
  | consoleError (message : Str)
deriving DecidableEq, Repr

/-- Whether an effect is a network request. -/
def Effect.isRequest : Effect → Bool
  | .fetchUploadUrl _ _ => true
  | .fetchPut _ _ _ => true
  | .fetchListFiles _ => true
  | .fetchDownloadUrl _ _ => true
  | .fetchGet _ => true
  | _ => false

/-- The answer to a `fetch`: the call throws, or a response arrives with its
`ok` flag, its status, and what reading its body gives (the body, or the message
of the error thrown). -/
inductive Fetched (β : Type) where
  | threw (message : Str)
  | response (ok : Bool) (status : Nat) (body : Except Str β)

/-- What the environment answers to the client: device storage, the prompt, the
clock, the broker and the storage service. -/
structure World where
  stored : Option Str
  promptVal : Option Str
  todayISO : Str
  hours : Nat
  minutes : Nat
  seconds : Nat
  uploadUrl : (fileName userId : Str) → Fetched (Option Str)
  put : (url body : Str) → Fetched Str
  downloadUrl : (key userId : Str) → Fetched (Option Str)
  get : (url : Str) → Fetched Str

/-- The client state the save and open flows read and write. -/
structure Page where
  USER_ID : Option Str
  dateBox : Str
  innerText : Str
  panelHidden : Bool
deriving DecidableEq, Repr

/-- The function `ensureUserId` (script.js 153-164): the resolved id, the new
`USER_ID` and the effects. -/
def ensureUserId (w : World) (USER_ID : Option Str) : Option Str × Option Str × List Effect :=
  if !absent USER_ID then (USER_ID, USER_ID, [])
  else if !absent w.stored then (w.stored, w.stored, [])
  else
    let ask := Effect.prompt "Enter your username/email to separate your notes:".toList
    match w.promptVal with
    | some promptVal =>
      if !(trim promptVal).isEmpty then
        (some (trim promptVal), some (trim promptVal), [ask, .storageSet (trim promptVal)])
      else (none, USER_ID, [ask])
    | none => (none, USER_ID, [ask])

/-- The file name the save handler builds (script.js 174-179). -/
def fileName (date : Str) (hours minutes seconds : Nat) : Str :=
  "NoteBook[".toList ++ date ++ "][".toList ++ padStart 2 "0".toList (ofNat hours) ++
    ":".toList ++ padStart 2 "0".toList (ofNat minutes) ++
    ":".toList ++ padStart 2 "0".toList (ofNat seconds) ++ "].txt".toList

/-- The text `err.message || err` of a caught error. -/
def errorText (message : Str) : Str := orElse message "Error".toList

/-- The `catch` block of the save handler (script.js 205-208). -/
def saveFailed (message : Str) : List Effect :=
  [.consoleError "Error saving to S3:".toList,
   .alert ("❌ Error saving to AWS: ".toList ++ errorText message)]

/-- Click handler of the save button (script.js 167-209). -/
def saveClick (w : World) (p : Page) : Page × List Effect :=
  let text := trim p.innerText
  if text.isEmpty then (p, [.alert "Please enter some text to save.".toList])
  else
    match ensureUserId w p.USER_ID with
    | (none, uid, fx) =>
      ({ p with USER_ID := uid }, fx ++ [.alert "User ID not set. Save cancelled.".toList])
    | (some userId, uid, fx) =>
      let p := { p with USER_ID := uid }
      let date := orElse p.dateBox w.todayISO
      let name := fileName date w.hours w.minutes w.seconds
      let fx := fx ++ [.fetchUploadUrl name userId]
      match w.uploadUrl name userId with
      | .threw message => (p, fx ++ saveFailed message)
      | .response false status _ =>
        (p, fx ++ saveFailed ("Presign request failed (".toList ++ ofNat status ++ ")".toList))
      | .response true _ (.error message) => (p, fx ++ saveFailed message)
      | .response true _ (.ok uploadUrl) =>
        if absent uploadUrl then
          (p, fx ++ saveFailed "No uploadUrl returned from backend".toList)
        else
          let fx := fx ++ [.fetchPut (uploadUrl.getD []) "text/plain".toList text]
          match w.put (uploadUrl.getD []) text with
          | .threw message => (p, fx ++ saveFailed message)
          | .response false status body =>
            let errmsg := "Upload failed: ".toList ++ ofNat status
            let errmsg :=
              match body with
              | .ok txt => errmsg ++ " — ".toList ++ txt.take 200
              | .error _ => errmsg
            (p, fx ++ saveFailed errmsg)
          | .response true _ _ =>
            let fx := fx ++ [.alert "✅ File saved to AWS successfully!".toList]
            (p, if !p.panelHidden then fx ++ [.fetchListFiles userId] else fx)

/-- One-character matchers of a regular expression: a literal, `\d`, `[^c]`. -/
inductive Atom where
  | chr (c : Char)
  | digit
  | notChr (c : Char)
deriving DecidableEq, Repr

/-- Whether an atom matches a character. -/
def Atom.test : Atom → Char → Bool
  | .chr c, x => x = c
  | .digit, x => '0' ≤ x && x ≤ '9'
  | .notChr c, x => x ≠ c

/-- The pieces of a regular expression, in sequence: an atom, an optional atom
(`a?`), a repeated atom (`a+`), both greedy, and the brackets of a capture
group. -/
inductive Item where
  | one (a : Atom)
  | opt (a : Atom)
  | plus (a : Atom)
  | openGroup (i : Nat)
  | closeGroup (i : Nat)
deriving DecidableEq, Repr

/-- A matcher in progress: the position reached in the input, the groups opened
and the groups captured (`(i, start, end)`). -/
structure MatchState where
  pos : Nat
  opened : List (Nat × Nat)
  groups : List (Nat × Nat × Nat)
deriving DecidableEq, Repr

/-- The state after one more character. -/
def MatchState.step (st : MatchState) : MatchState := { st with pos := st.pos + 1 }

/-- Greedy `a+` followed by the continuation `k`: the longest run is tried
first, shorter ones on backtracking. -/
def plusLoop (a : Atom) (k : Str → MatchState → Option MatchState) :
    Str → MatchState → Option MatchState
  | [], _ => none
  | c :: cs, st =>
    if a.test c then
      match plusLoop a k cs st.step with
      | some r => some r
      | none => k cs st.step
    else none

/-- Backtracking match of a sequence of items at the start of the input. -/
def matchItems : List Item → Str → MatchState → Option MatchState
  | [], _, st => some st
  | .one a :: r, s, st =>
    match s with
    | c :: cs => if a.test c then matchItems r cs st.step else none
    | [] => none
  | .opt a :: r, s, st =>
    match (match s with
      | c :: cs => if a.test c then matchItems r cs st.step else none
      | [] => none) with
    | some x => some x
    | none => matchItems r s st
  | .plus a :: r, s, st => plusLoop a (matchItems r) s st
  | .openGroup i :: r, s, st => matchItems r s { st with opened := (i, st.pos) :: st.opened }
  | .closeGroup i :: r, s, st =>
    matchItems r s
      { st with groups := (i, ((st.opened.lookup i).getD st.pos), st.pos) :: st.groups }

/-- The leftmost match: the start positions are tried from left to right. -/
def search (re : List Item) : Str → Nat → Option MatchState
  | [], pos => matchItems re [] ⟨pos, [], []⟩
  | c :: cs, pos =>
    match matchItems re (c :: cs) ⟨pos, [], []⟩ with
    | some r => some r
    | none => search re cs (pos + 1)

/-- The text of capture group `i` of a match in `s` (`m[i]`). -/
def group (s : Str) (m : MatchState) (i : Nat) : Option Str :=
  (m.groups.lookup i).map fun se => (s.drop se.1).take (se.2 - se.1)

/-- The regular expression `/\[(\d{4}-\d{2}-\d{2})T?([^\]]+)\]/` (script.js 266). -/
def dateRegex : List Item :=
  [.one (.chr '['), .openGroup 1] ++ List.replicate 4 (.one .digit) ++ [.one (.chr '-')] ++
  List.replicate 2 (.one .digit) ++ [.one (.chr '-')] ++ List.replicate 2 (.one .digit) ++
  [.closeGroup 1, .opt (.chr 'T'), .openGroup 2, .plus (.notChr ']'), .closeGroup 2,
   .one (.chr ']')]

/-- The date read from a key (script.js 265-267): `m[1]` when the trailing path
segment matches. -/
def parseDate (key : Str) : Option Str :=
  let filename := orElse ((split '/' key).getLast?.getD []) []
  match search dateRegex filename 0 with
  | some m => group filename m 1
  | none => none

/-- The `catch` block of the open handler (script.js 269-272). -/
def openFailed (message : Str) : List Effect :=
  [.consoleError "Error opening file:".toList,
   .alert ("Failed to open note: ".toList ++ errorText message)]

/-- Click handler of the notes list, on an entry whose `data-key` holds `key`
(script.js 243-273). -/
def notesListClick (w : World) (p : Page) (key : Str) : Page × List Effect :=
  if key.isEmpty then (p, [])
  else
    match ensureUserId w p.USER_ID with
    | (none, uid, fx) => ({ p with USER_ID := uid }, fx ++ [.alert "No user id".toList])
    | (some userId, uid, fx) =>
      let p := { p with USER_ID := uid }
      let fx := fx ++ [.fetchDownloadUrl key userId]
      match w.downloadUrl key userId with
      | .threw message => (p, fx ++ openFailed message)
      | .response false status _ =>
        (p, fx ++ openFailed
          ("Download-url request failed (".toList ++ ofNat status ++ ")".toList))
      | .response true _ (.error message) => (p, fx ++ openFailed message)
      | .response true _ (.ok downloadUrl) =>
        if absent downloadUrl then (p, fx ++ openFailed "No downloadUrl returned".toList)
        else
          let fx := fx ++ [.fetchGet (downloadUrl.getD [])]
          match w.get (downloadUrl.getD []) with
          | .threw message => (p, fx ++ openFailed message)
          | .response false status _ =>
            (p, fx ++ openFailed
              ("Failed to fetch file contents (".toList ++ ofNat status ++ ")".toList))
          | .response true _ (.error message) => (p, fx ++ openFailed message)
          | .response true _ (.ok text) =>
            let p := { p with innerText := text }
            let p :=
              match parseDate key with
              | some d => { p with dateBox := d }
              | none => p
            ({ p with panelHidden := true }, fx)

/-- An environment in which the broker and the storage service answer every
request with success; the stored note reads `hello world`. -/
def servingWorld : World :=
  { stored := some "alice".toList, promptVal := none, todayISO := "2024-01-02".toList,
    hours := 9, minutes := 5, seconds := 30,
    uploadUrl := fun _ _ => .response true 200 (.ok (some "https://put".toList)),
    put := fun _ _ => .response true 200 (.ok []),
    downloadUrl := fun _ _ => .response true 200 (.ok (some "https://get".toList)),
    get := fun _ => .response true 200 (.ok "hello world".toList) }

/-- A store with 1001 keys of the owner `bob`: `bob/0`, `bob/1`, ..., `bob/1000`. -/
def manyKeys : List Str :=
  (List.range 1001).map fun i => "bob/".toList ++ ofNat i

/-! ## script.js: the editor -/

/-- A DOM node with its identity: a text node or an element with its tag, its
attributes, the properties of its inline style and its children. -/
inductive Node where
  | text (id : Nat) (data : Str)
  | elem (id : Nat) (tag : Str) (attrs : List (Str × Str)) (style : List (Str × Str))
      (children : List Node)
deriving Repr

/-- A node without the identities: what the markup shows. -/
inductive Markup where
  | text (data : Str)
  | elem (tag : Str) (attrs : List (Str × Str)) (style : List (Str × Str))
      (children : List Markup)
deriving Repr

/-- The identity of a node. -/
def Node.id : Node → Nat
  | .text id _ => id
  | .elem id _ _ _ _ => id

/-- The markup of a node. -/
def Node.markup : Node → Markup
  | .text _ data => .text data
  | .elem _ tag attrs style cs => .elem tag attrs style (markupL cs)
where markupL : List Node → List Markup
  | [] => []
  | c :: cs => c.markup :: markupL cs

/-- The descendants of a node in tree order, the node itself left out. -/
def Node.descendants : Node → List Node
  | .text _ _ => []
  | .elem _ _ _ _ cs => descendantsL cs
where descendantsL : List Node → List Node
  | [] => []
  | c :: cs => c :: (c.descendants ++ descendantsL cs)

/-- Whether a node matches the selector `font[size]`. -/
def Node.isFontSize : Node → Bool
  | .text _ _ => false
  | .elem _ tag attrs _ _ => tag == "font".toList && (attrs.lookup "size".toList).isSome

/-- The static list `root.querySelectorAll('font[size]')`: the matching
descendants in tree order, each held by its identity. -/
def querySelectorAll (root : Node) : List Nat :=
  (root.descendants.filter Node.isFontSize).map Node.id

/-- A copy of a node with new identities, numbered from `n`, and the next unused
identity: what assigning `innerHTML` from another node's `innerHTML` builds
(markup that the parser reads back as it was written). -/
def Node.clone : Node → Nat → Node × Nat
  | .text _ data, n => (.text n data, n + 1)
  | .elem _ tag attrs style cs, n =>
    let r := cloneL cs (n + 1)
    (.elem n tag attrs style r.1, r.2)
where cloneL : List Node → Nat → List Node × Nat
  | [], n => ([], n)
  | c :: cs, n =>
    let r := c.clone n
    let rs := cloneL cs r.2
    (r.1 :: rs.1, rs.2)

/-- The node with identity `id` in a tree. -/
def Node.find? (id : Nat) : Node → Option Node
  | .text i data => if i = id then some (.text i data) else none
  | .elem i tag attrs style cs =>
    if i = id then some (.elem i tag attrs style cs) else findL id cs
where findL (id : Nat) : List Node → Option Node
  | [] => none
  | c :: cs =>
    match c.find? id with
    | some n => some n
    | none => findL id cs

/-- The tree after `parent.replaceChild(new, old)`, where `parent` is the node of
the tree that has the node `old` among its children. -/
def Node.replaceChild (new : Node) (old : Nat) : Node → Node
  | .text i data => .text i data
  | .elem i tag attrs style cs => .elem i tag attrs style (replaceL new old cs)
where replaceL (new : Node) (old : Nat) : List Node → List Node
  | [] => []
  | c :: cs =>
    (if c.id = old then new else Node.replaceChild new old c) :: replaceL new old cs

/-- The child indices that lead from a node to the descendant with identity
`id`. -/
def Node.pathOf? (id : Nat) : Node → Option (List Nat)
  | .text _ _ => none
  | .elem _ _ _ _ cs => pathL id 0 cs
where pathL (id : Nat) (k : Nat) : List Node → Option (List Nat)
  | [] => none
  | c :: cs =>
    if c.id = id then some [k]
    else
      match Node.pathOf? id c with
      | some p => some (k :: p)
      | none => pathL id (k + 1) cs

/-- A boundary point of a range: the container, given by the child indices that
lead to it from `.content`, and the offset inside it. -/
structure Point where
  path : List Nat
  offset : Nat
deriving DecidableEq, Repr

/-- A range: its start and its end. -/
structure Range where
  start : Point
  stop : Point
deriving DecidableEq, Repr

/-- The range collapsed at a point. -/
def Range.at (p : Point) : Range := ⟨p, p⟩

/-- Where the DOM puts a boundary point of a live range when the child `index`
of the node at `parent` is replaced (`replaceChild` removes the child and then
inserts the new node at its place): a point inside the removed child goes to
`(parent, index)`; a point of `parent` right after the child steps back with the
removal and is not moved by the insertion; every other point stays. -/
def Point.afterReplace (parent : List Nat) (index : Nat) (p : Point) : Point :=
  if (parent ++ [index]).isPrefixOf p.path then ⟨parent, index⟩
  else if p.path = parent ∧ p.offset = index + 1 then ⟨parent, index⟩
  else p

/-- A live range after the child `index` of the node at `parent` is replaced. -/
def Range.afterReplace (parent : List Nat) (index : Nat) (r : Range) : Range :=
  ⟨r.start.afterReplace parent index, r.stop.afterReplace parent index⟩

/-- The nodes and live ranges the script holds: the `.content` element with all
that is attached to it, the trees detached from it, the next unused identity,
the range of `window.getSelection()` when it has one, and the range in the
variable `savedRange`. -/
structure Dom where
  content : Node
  detached : List Node
  nextId : Nat
  selection : Option Range
  savedRange : Option Range
deriving Repr

/-- The node with identity `id`, attached or detached. -/
def Dom.find? (d : Dom) (id : Nat) : Option Node :=
  (d.content :: d.detached).findSome? (Node.find? id)

/-- Whether the node with identity `id` has a parent. -/
def Dom.hasParent (d : Dom) (id : Nat) : Bool :=
  (d.content :: d.detached).any fun t => t.descendants.any fun n => n.id = id

/-- What a property read or the variable `currentFontSize` holds: `null` or
`undefined`, a string, or an object of another kind (a function, the prototype
object), which is truthy and is not a string. -/
inductive Value where
  | null
  | str (s : Str)
  | object
deriving DecidableEq, Repr

/-- JavaScript `!x` for such a value. -/
def Value.falsy : Value → Bool
  | .null => true
  | .str s => s.isEmpty
  | .object => false

/-- JavaScript `x || d` for such values. -/
def Value.or (x d : Value) : Value := if x.falsy then d else x

/-- The own properties of the object `sizeMap` (script.js 53). -/
def sizeMap : List (Str × Str) :=
  [("2".toList, "12px".toList), ("3".toList, "16px".toList), ("4".toList, "20px".toList)]

/-- The names every plain object inherits from `Object.prototype`: under each of
them a read finds a function, or for `__proto__` the prototype object. -/
def objectPrototype : List Str :=
  ["constructor".toList, "__defineGetter__".toList, "__defineSetter__".toList,
   "hasOwnProperty".toList, "__lookupGetter__".toList, "__lookupSetter__".toList,
   "isPrototypeOf".toList, "propertyIsEnumerable".toList, "toString".toList,
   "valueOf".toList, "__proto__".toList, "toLocaleString".toList]

/-- The property read `sizeMap[name]`: an own property, else an inherited one,
else `undefined`. -/
def sizeMapAt (name : Str) : Value :=
  match sizeMap.lookup name with
  | some size => .str size
  | none => if name ∈ objectPrototype then .object else .null

/-- The inline style of a new `span` after `span.style.fontSize = value`: a
string is a CSS size (each string the script assigns is one of `12px`, `16px`,
`20px`); an object of another kind is no CSS value and the assignment leaves the
style empty. -/
def fontSizeStyle : Value → List (Str × Str)
  | .str size => if size.isEmpty then [] else [("font-size".toList, size)]
  | _ => []

/-- The body of the `forEach` callback of `replaceFontTags` (script.js 109-113)
for the node `font`: `none` when `font.parentNode` is `null` and the call
throws.  When `font` is attached, the live ranges follow the replacement. -/
def replaceFontTag (d : Dom) (font : Nat) : Option Dom :=
  match d.find? font with
  | some (.elem i tag attrs style children) =>
    let size := attrs.lookup "size".toList
    let value := (sizeMapAt (size.getD "null".toList)).or (.str "16px".toList)
    let kids := Node.clone.cloneL children (d.nextId + 1)
    let span := Node.elem d.nextId "span".toList [] (fontSizeStyle value) kids.1
    if d.hasParent font then
      let move : Range → Range :=
        match d.content.pathOf? font with
        | some path => Range.afterReplace path.dropLast (path.getLastD 0)
        | none => id
      some { content := Node.replaceChild span font d.content,
             detached := d.detached.map (Node.replaceChild span font) ++
               [.elem i tag attrs style children],
             nextId := kids.2,
             selection := d.selection.map move,
             savedRange := d.savedRange.map move }
    else none
  | _ => none

/-- The `forEach` over the static list of `replaceFontTags`; a throw ends it. -/
def replaceEach : List Nat → Dom → Dom
  | [], d => d
  | font :: rest, d =>
    match replaceFontTag d font with
    | some d' => replaceEach rest d'
    | none => d

/-- The function `replaceFontTags` (script.js 107-115). -/
def replaceFontTags (d : Dom) : Dom :=
  replaceEach (querySelectorAll d.content) d

/-- The DOM operation `range.insertNode(new)` for a range that starts at
`(path, offset)`, then `range.setStartAfter(new)`: the tree with `new` inserted
and the point right after `new`.  In an element `new` goes before the child at
`offset`; a text node is split at `offset` (the second half gets the identity
`fresh`) and `new` goes between the halves.  The result is `none` when the
point is not in the tree and the call throws. -/
def Node.insertNode (new : Node) (fresh : Nat) : List Nat → Nat → Node → Option (Node × Point)
  | _, _, .text _ _ => none
  | [], offset, .elem i tag attrs style cs =>
    if offset ≤ cs.length then
      some (.elem i tag attrs style (cs.take offset ++ new :: cs.drop offset), ⟨[], offset + 1⟩)
    else none
  | k :: rest, offset, .elem i tag attrs style cs =>
    match cs[k]? with
    | none => none
    | some (.text t data) =>
      if rest.isEmpty && offset ≤ data.length then
        some (.elem i tag attrs style
          (cs.take k ++ .text t (data.take offset) :: new :: .text fresh (data.drop offset) ::
            cs.drop (k + 1)), ⟨[], k + 2⟩)
      else none
    | some c =>
      match Node.insertNode new fresh rest offset c with
      | some (c', after) =>
        some (.elem i tag attrs style (cs.set k c'), ⟨k :: after.path, after.offset⟩)
      | none => none

/-- What the script leaves to the browser: the editing command
`document.execCommand`, the selection after `content.focus()`, and
`range.deleteContents()` on a range that is not collapsed. -/
structure Browser where
  execCommand : Str → Option Str → Dom → Dom
  focus : Dom → Option Range
  deleteContents : Node → Range → Node × Range

/-- The state of the editor: the nodes with the live ranges, the variable
`currentFontSize`, and the number of `replaceFontTags` calls that `setTimeout`
has scheduled. -/
structure Editor where
  dom : Dom
  currentFontSize : Value
  timers : Nat

/-- The function `saveSelection` (script.js 28-33). -/
def saveSelection (ed : Editor) : Editor :=
  match ed.dom.selection with
  | some r => { ed with dom := { ed.dom with savedRange := some r } }
  | none => ed

/-- The function `restoreSelection` (script.js 34-38). -/
def restoreSelection (ed : Editor) : Editor :=
  { ed with dom := { ed.dom with selection := ed.dom.savedRange } }

/-- The function `exec` (script.js 41-47); the toolbar classes that
`updateActiveButtons` toggles are not part of the state. -/
def exec (b : Browser) (ed : Editor) (cmd : Str) (value : Option Str) : Editor :=
  let ed := restoreSelection ed
  let ed := { ed with dom := b.execCommand cmd value ed.dom }
  let ed := { ed with dom := { ed.dom with selection := b.focus ed.dom } }
  { ed with timers := ed.timers + 1 }

/-- Listener of `change` on the size selector (script.js 62-68). -/
def fontSizeChange (b : Browser) (ed : Editor) (val : Str) : Editor :=
  if val.isEmpty then ed
  else
    let ed := restoreSelection ed
    let ed := exec b ed "fontSize".toList (some val)
    { ed with currentFontSize := (sizeMapAt val).or .null }

/-- The common tail of both branches of the `beforeinput` listener (script.js
81-88 and 95-102): delete the selected content, insert the node, put the caret
after it, dispatch `input` (its listener is `replaceFontTags`, script.js 134)
and save the selection.  The new node has the identity `ed.dom.nextId`, its
text child, if any, the next one, and the second half of a split text node the
one after.  When `insertNode` throws the listener ends there. -/
def insertAtCaret (b : Browser) (ed : Editor) (range : Range) (new : Node) : Editor :=
  let r :=
    if range.start = range.stop then (ed.dom.content, range)
    else b.deleteContents ed.dom.content range
  match Node.insertNode new (ed.dom.nextId + 2) r.2.start.path r.2.start.offset r.1 with
  | none => { ed with dom := { ed.dom with content := r.1, selection := some r.2 } }
  | some (content, after) =>
    let dom := { ed.dom with
      content := content, nextId := ed.dom.nextId + 3, selection := some (Range.at after) }
    let ed := { ed with dom := replaceFontTags dom }
    saveSelection ed

/-- Listener of `beforeinput` on `.content` (script.js 71-104). -/
def beforeinput (b : Browser) (ed : Editor) (inputType : Str) (data : Option Str) : Editor :=
  if ed.currentFontSize.falsy then ed
  else if inputType = "insertText".toList || inputType = "insertCompositionText".toList then
    match ed.dom.selection with
    | none => ed
    | some range =>
      let text := if absent data then [] else data.getD []
      let span := Node.elem ed.dom.nextId "span".toList [] (fontSizeStyle ed.currentFontSize)
        (if text.isEmpty then [] else [.text (ed.dom.nextId + 1) text])
      insertAtCaret b ed range span
  else if inputType = "insertParagraph".toList then
    match ed.dom.selection with
    | none => ed
    | some range => insertAtCaret b ed range (.elem ed.dom.nextId "br".toList [] [] [])
  else ed

/-- The events the script listens to. -/
inductive Event where
  | boldClick
  | italicClick
  | underlineClick
  | contentMouseup
  | contentKeyup
  | contentFocus
  | selectorMousedown
  | selectorChange (value : Str)
  | contentBeforeinput (inputType : Str) (data : Option Str)
  | selectionchange
  | contentClick
  | contentInput
  | timeout
deriving DecidableEq, Repr

/-- The listener the script registers for each event. -/
def handle (b : Browser) (ed : Editor) : Event → Editor
  | .boldClick => exec b ed "bold".toList none
  | .italicClick => exec b ed "italic".toList none
  | .underlineClick => exec b ed "underline".toList none
  | .contentMouseup => saveSelection ed
  | .contentKeyup => saveSelection ed
  | .contentFocus => saveSelection ed
  | .selectorMousedown => saveSelection ed
  | .selectorChange value => fontSizeChange b ed value
  | .contentBeforeinput inputType data => beforeinput b ed inputType data
  | .selectionchange => saveSelection ed
  | .contentClick =>
    saveSelection { ed with dom := { ed.dom with selection := b.focus ed.dom } }
  | .contentInput => { ed with dom := replaceFontTags ed.dom }
  | .timeout =>
    if ed.timers = 0 then ed
    else { ed with dom := replaceFontTags ed.dom, timers := ed.timers - 1 }

/-- The editor after a sequence of events. -/
def run (b : Browser) (ed : Editor) (events : List Event) : Editor :=
  events.foldl (handle b) ed

/-- A browser whose editing command and `focus` change nothing and whose
`deleteContents` only collapses the range. -/
def idleBrowser : Browser :=
  { execCommand := fun _ _ d => d, focus := fun d => d.selection,
    deleteContents := fun d r => (d, Range.at r.start) }

/-- A node and its descendants, in tree order. -/
def Node.nodes (t : Node) : List Node := t :: t.descendants

/-- The node at the end of a path of child indices. -/
def Node.nodeAt? : List Nat → Node → Option Node
  | [], t => some t
  | _ :: _, .text _ _ => none
  | k :: rest, .elem _ _ _ _ cs =>
    match cs[k]? with
    | some c => Node.nodeAt? rest c
    | none => none

/-- Whether a boundary point whose container is at `path` is inside a legacy
size tag: whether a node on the way from the root down to the container, the
container included and the root left out, matches `font[size]`. -/
def Node.insideFont : List Nat → Node → Bool
  | [], _ => false
  | _ :: _, .text _ _ => false
  | k :: rest, .elem _ _ _ _ cs =>
    match cs[k]? with
    | some c => c.isFontSize || Node.insideFont rest c
    | none => false

/-- Whether markup holds a legacy size tag, at its top or below. -/
def Markup.hasFont : Markup → Bool
  | .text _ => false
  | .elem tag attrs _ cs =>
    (tag == "font".toList && (attrs.lookup "size".toList).isSome) || hasFontL cs
where hasFontL : List Markup → Bool
  | [] => false
  | c :: cs => c.hasFont || hasFontL cs

/-- Every node on the way from the root down to the node at `path`, that node
included and the root left out, has its identity in `S` and does not match
`font[size]`. -/
def Node.spineIn (S : Nat → Prop) : List Nat → Node → Prop
  | [], _ => True
  | _ :: _, .text _ _ => False
  | k :: rest, .elem _ _ _ _ cs =>
    match cs[k]? with
    | some c => S c.id ∧ c.isFontSize = false ∧ Node.spineIn S rest c
    | none => False

/-- What is left and right of a caret at `(path, offset)` among the children of
its parent, as markup: in an element the children before and from `offset`; in a
text node the siblings before it with the text before `offset`, and the text
from `offset` with the siblings after it.  The first component is the path of
that parent. -/
def Node.caret : List Nat → Nat → Node → Option (List Nat × List Markup × List Markup)
  | _, _, .text _ _ => none
  | [], offset, .elem _ _ _ _ cs =>
    if offset ≤ cs.length then
      some ([], (cs.take offset).map Node.markup, (cs.drop offset).map Node.markup)
    else none
  | k :: rest, offset, .elem _ _ _ _ cs =>
    match cs[k]? with
    | none => none
    | some (.text _ data) =>
      if rest.isEmpty && offset ≤ data.length then
        some ([], (cs.take k).map Node.markup ++ [.text (data.take offset)],
          .text (data.drop offset) :: (cs.drop (k + 1)).map Node.markup)
      else none
    | some c =>
      match Node.caret rest offset c with
      | some r => some (k :: r.1, r.2.1, r.2.2)
      | none => none

/-- The typing events of the sticky-size interceptor: text, plain or composed,
and a paragraph break. -/
inductive Typed where
  | text (composed : Bool) (data : Str)
  | paragraph
deriving DecidableEq, Repr

/-- The `beforeinput` event of a typing event. -/
def Typed.event : Typed → Event
  | .text false data => .contentBeforeinput "insertText".toList (some data)
  | .text true data => .contentBeforeinput "insertCompositionText".toList (some data)
  | .paragraph => .contentBeforeinput "insertParagraph".toList none

/-- The node the `beforeinput` listener creates for a typing event under the
size `size`, with the identity `id` (script.js 78-80 and 94). -/
def Typed.node (id : Nat) (size : Str) : Typed → Node
  | .text _ data =>
    .elem id "span".toList [] (fontSizeStyle (.str size))
      (if data.isEmpty then [] else [.text (id + 1) data])
  | .paragraph => .elem id "br".toList [] [] []

/-- The markup a typing event is to leave under the size `size`: a `span` with
that font size around the text, or a `br`. -/
def Typed.shape (size : Str) : Typed → Markup
  | .text _ data =>
    .elem "span".toList [] [("font-size".toList, size)] (if data.isEmpty then [] else [.text data])
  | .paragraph => .elem "br".toList [] [] []

/-- The legacy markup `<font size="4">a<font size="2">b</font></font>` inside
`.content`. -/
def nestedFonts : Dom :=
  { content := .elem 0 "div".toList [] []
      [.elem 1 "font".toList [("size".toList, "4".toList)] []
        [.text 2 "a".toList,
         .elem 3 "font".toList [("size".toList, "2".toList)] [] [.text 4 "b".toList]]],
    detached := [], nextId := 5, selection := none, savedRange := none }

/-- The legacy markup `<font size="4">a</font><font size="9">b</font>` inside
`.content`. -/
def flatFonts : Dom :=
  { content := .elem 0 "div".toList [] []
      [.elem 1 "font".toList [("size".toList, "4".toList)] [] [.text 2 "a".toList],
       .elem 3 "font".toList [("size".toList, "9".toList)] [] [.text 4 "b".toList]],
    detached := [], nextId := 5, selection := none, savedRange := none }

/-- An editor with the text `xy`, the caret between `x` and `y` and the sticky
size 20px. -/
def typingEditor : Editor :=
  { dom := { content := .elem 0 "div".toList [] [] [.text 1 "xy".toList],
             detached := [], nextId := 2,
             selection := some (Range.at ⟨[0], 1⟩), savedRange := none },
    currentFontSize := .str "20px".toList, timers := 0 }

/-- An editor with the legacy markup `<font size="4">xy</font>`, the caret
between `x` and `y` and the sticky size 20px. -/
def legacyEditor : Editor :=
  { dom := { content := .elem 0 "div".toList [] []
               [.elem 1 "font".toList [("size".toList, "4".toList)] []
                 [.text 2 "xy".toList]],
             detached := [], nextId := 3,
             selection := some (Range.at ⟨[0, 0], 1⟩), savedRange := none },
    currentFontSize := .str "20px".toList, timers := 0 }

/-- An editor with the markup `<font size="4">z</font>xy`, the caret between `x`
and `y` and the sticky size 20px. -/
def neighbourEditor : Editor :=
  { dom := { content := .elem 0 "div".toList [] []
               [.elem 1 "font".toList [("size".toList, "4".toList)] [] [.text 2 "z".toList],
                .text 3 "xy".toList],
             detached := [], nextId := 4,
             selection := some (Range.at ⟨[1], 1⟩), savedRange := none },
    currentFontSize := .str "20px".toList, timers := 0 }

/-- The markup of a tree in which the element at `path` has the children `ms`
and everything else is as it was. -/
def Markup.withChildrenAt : List Nat → List Markup → Markup → Option Markup
  | _, _, .text _ => none
  | [], ms, .elem tag attrs style _ => some (.elem tag attrs style ms)
  | k :: rest, ms, .elem tag attrs style cs =>
    match cs[k]? with
    | none => none
    | some c =>
      match Markup.withChildrenAt rest ms c with
      | some c' => some (.elem tag attrs style (cs.set k c'))
      | none => none

/-! # Theorems -/

/-! ### Lemmas on strings -/

theorem startsWith_iff (s p : Str) : startsWith s p = true ↔ p <+: s := by
  simp [startsWith, List.isPrefixOf_iff_prefix]

theorem replace_strips_leading (pre rest : Str) : replace pre [] (pre ++ rest) = rest := by
  cases h : pre ++ rest with
  | nil =>
    have h1 : pre = [] := (List.append_eq_nil.mp h).1
    have h2 : rest = [] := (List.append_eq_nil.mp h).2
    subst h1; subst h2
    simp [replace]
  | cons c cs =>
    have hp : pre.isPrefixOf (c :: cs) = true := by
      rw [← h]; simp [List.isPrefixOf_iff_prefix]
    simp only [replace, hp, if_true, List.nil_append]
    rw [← h]; simp

theorem falsy_str (s : Str) : falsy (some (.str s)) = false ↔ s ≠ [] := by
  cases s <;> simp [falsy]

theorem falsy_str_eq (s : Str) (h : s ≠ []) : falsy (some (.str s)) = false :=
  (falsy_str s).mpr h

/-- A string without `/`, followed by `/`, is a prefix of another such string
followed by `/` and anything only when the two strings are equal. -/
theorem owner_of_slash_prefixed (u₁ u₂ rest : Str) (h₁ : '/' ∉ u₁) (h₂ : '/' ∉ u₂)
    (h : (u₂ ++ ['/']) <+: (u₁ ++ ['/'] ++ rest)) : u₁ = u₂ := by
  induction u₂ generalizing u₁ with
  | nil =>
    cases u₁ with
    | nil => rfl
    | cons c cs =>
      obtain ⟨t, ht⟩ := h
      simp at ht
      exact absurd (ht.1 ▸ List.mem_cons_self c cs) h₁
  | cons d ds ih =>
    cases u₁ with
    | nil =>
      obtain ⟨t, ht⟩ := h
      simp at ht
      exact absurd (ht.1 ▸ List.mem_cons_self d ds) h₂
    | cons c cs =>
      obtain ⟨t, ht⟩ := h
      simp at ht
      obtain ⟨hdc, htl⟩ := ht
      have hcs : '/' ∉ cs := fun hm => h₁ (List.mem_cons_of_mem c hm)
      have hds : '/' ∉ ds := fun hm => h₂ (List.mem_cons_of_mem d hm)
      have := ih cs hcs hds ⟨t, by simpa using htl⟩
      rw [hdc, this]

/-! ### The credential broker -/

theorem getDownloadUrl_missing (BUCKET : Option Str) (getSignedUrl : Signer)
    (key userId : Query) (h : falsy key = true ∨ falsy userId = true) :
    getDownloadUrl BUCKET getSignedUrl key userId
      = ⟨⟨400, .error "Missing key or userId".toList⟩, []⟩ := by
  have hc : (falsy key || falsy userId) = true := by
    rcases h with h | h <;> simp [h]
  simp only [getDownloadUrl, hc, if_true]

theorem getDownloadUrl_forbidden (BUCKET : Option Str) (getSignedUrl : Signer)
    (k : Str) (userId : Query) (hk : k ≠ []) (hu : falsy userId = false)
    (hp : ¬ (toStr userId ++ "/".toList) <+: k) :
    getDownloadUrl BUCKET getSignedUrl (some (.str k)) userId
      = ⟨⟨403, .error "Forbidden".toList⟩, []⟩ := by
  have hs : startsWith k (toStr userId ++ "/".toList) = false := by
    cases hb : startsWith k (toStr userId ++ "/".toList) with
    | false => rfl
    | true => exact absurd ((startsWith_iff _ _).mp hb) hp
  simp only [getDownloadUrl, falsy_str_eq k hk, hu, hs, Bool.or_self, Bool.false_eq_true,
    if_false, Bool.not_false, if_true]

theorem getDownloadUrl_allowed (BUCKET : Option Str) (getSignedUrl : Signer)
    (k : Str) (userId : Query) (hk : k ≠ []) (hu : falsy userId = false)
    (hp : (toStr userId ++ "/".toList) <+: k) :
    getDownloadUrl BUCKET getSignedUrl (some (.str k)) userId
      = (match getSignedUrl (.GetObjectCommand BUCKET k) 3600 with
        | .ok url => ⟨⟨200, .download url⟩, [⟨.GetObjectCommand BUCKET k, 3600⟩]⟩
        | .error _ => ⟨⟨500, .error "failed to generate download url".toList⟩,
            [⟨.GetObjectCommand BUCKET k, 3600⟩]⟩) := by
  have hs : startsWith k (toStr userId ++ "/".toList) = true := (startsWith_iff _ _).mpr hp
  simp only [getDownloadUrl, falsy_str_eq k hk, hu, hs, Bool.or_self, Bool.false_eq_true,
    if_false, Bool.not_true]

theorem getDownloadUrl_other (BUCKET : Option Str) (getSignedUrl : Signer)
    (text : Str) (userId : Query) (hu : falsy userId = false) :
    getDownloadUrl BUCKET getSignedUrl (some (.other text)) userId
      = ⟨⟨500, .error "failed to generate download url".toList⟩, []⟩ := by
  have hk : falsy (some (.other text)) = false := rfl
  simp only [getDownloadUrl, hk, hu, Bool.or_self, Bool.false_eq_true, if_false]

/-- C1 as stated fails when `key` is present but not a string: for the request
`?key=bob/x.txt&key=y&userId=alice` Express hands over the array
`['bob/x.txt', 'y']`; both parameters are present and what the key reads as does
not start with `alice/`, but `key.startsWith` throws and the handler answers
500, not 403. -/
theorem download_repeated_key_answers_500 :
    falsy (some (.other "bob/x.txt,y".toList)) = false ∧
    falsy (some (.str "alice".toList)) = false ∧
    ¬ (toStr (some (.str "alice".toList)) ++ "/".toList)
      <+: toStr (some (.other "bob/x.txt,y".toList)) ∧
    (getDownloadUrl (some "bucket".toList) (fun _ _ => .ok "signed".toList)
      (some (.other "bob/x.txt,y".toList)) (some (.str "alice".toList))).response.status
      = 500 := by
  refine ⟨rfl, rfl, by decide, by decide⟩

/-- C1, amended. Download prefix invariant: when `key` and `userId` are both
present, `key` is a string and it does not start with `userId + "/"`, the
download handler answers 403, the body has no `downloadUrl` and the signer is
not invoked; when `key` is present and not a string, it answers 500, the body
has no `downloadUrl` and the signer is not invoked; and for every request, when
the body has a `downloadUrl` then both are present and `key` is a string that
starts with `userId + "/"`. -/
theorem download_prefix_invariant (BUCKET : Option Str) (getSignedUrl : Signer)
    (key userId : Query) :
    (∀ k, key = some (.str k) → falsy key = false → falsy userId = false →
      ¬ (toStr userId ++ "/".toList) <+: k →
      (getDownloadUrl BUCKET getSignedUrl key userId).response.status = 403 ∧
      (getDownloadUrl BUCKET getSignedUrl key userId).response.body.downloadUrl = none ∧
      (getDownloadUrl BUCKET getSignedUrl key userId).signed = []) ∧
    (∀ text, key = some (.other text) → falsy userId = false →
      (getDownloadUrl BUCKET getSignedUrl key userId).response.status = 500 ∧
      (getDownloadUrl BUCKET getSignedUrl key userId).response.body.downloadUrl = none ∧
      (getDownloadUrl BUCKET getSignedUrl key userId).signed = []) ∧
    (∀ url,
      (getDownloadUrl BUCKET getSignedUrl key userId).response.body.downloadUrl = some url →
      falsy key = false ∧ falsy userId = false ∧
      ∃ k, key = some (.str k) ∧ (toStr userId ++ "/".toList) <+: k) := by
  refine ⟨?_, ?_, ?_⟩
  · intro k hkey hk hu hp
    subst hkey
    rw [getDownloadUrl_forbidden BUCKET getSignedUrl k userId ((falsy_str k).mp hk) hu hp]
    exact ⟨rfl, rfl, rfl⟩
  · intro text hkey hu
    subst hkey
    rw [getDownloadUrl_other BUCKET getSignedUrl text userId hu]
    exact ⟨rfl, rfl, rfl⟩
  · intro url hurl
    cases hk : falsy key with
    | true =>
      rw [getDownloadUrl_missing BUCKET getSignedUrl key userId (Or.inl hk)] at hurl
      exact absurd hurl (by simp [Body.downloadUrl])
    | false =>
      cases hu : falsy userId with
      | true =>
        rw [getDownloadUrl_missing BUCKET getSignedUrl key userId (Or.inr hu)] at hurl
        exact absurd hurl (by simp [Body.downloadUrl])
      | false =>
        refine ⟨rfl, rfl, ?_⟩
        cases key with
        | none => exact absurd hk (by simp [falsy])
        | some v =>
          cases v with
          | other text =>
            rw [getDownloadUrl_other BUCKET getSignedUrl text userId hu] at hurl
            exact absurd hurl (by simp [Body.downloadUrl])
          | str k =>
            refine ⟨k, rfl, ?_⟩
            by_contra hp
            rw [getDownloadUrl_forbidden BUCKET getSignedUrl k userId ((falsy_str k).mp hk)
              hu hp] at hurl
            exact absurd hurl (by simp [Body.downloadUrl])

/-- C1, amended, at the key `bob/x.txt` asked for by `alice`: 403. -/
theorem download_prefix_invariant_witness :
    (falsy (some (.str "bob/x.txt".toList)) = false ∧
      falsy (some (.str "alice".toList)) = false ∧
      ¬ ("alice".toList ++ "/".toList) <+: "bob/x.txt".toList) ∧
    (getDownloadUrl (some "bucket".toList) (fun _ _ => .ok "signed".toList)
      (some (.str "bob/x.txt".toList)) (some (.str "alice".toList))).response.status = 403 ∧
    (getDownloadUrl (some "bucket".toList) (fun _ _ => .ok "signed".toList)
      (some (.str "bob/x.txt".toList)) (some (.str "alice".toList))).response.body.downloadUrl
      = none ∧
    (getDownloadUrl (some "bucket".toList) (fun _ _ => .ok "signed".toList)
      (some (.str "bob/x.txt".toList)) (some (.str "alice".toList))).signed = [] :=
  ⟨⟨rfl, rfl, by decide⟩,
   (download_prefix_invariant (some "bucket".toList) (fun _ _ => .ok "signed".toList)
      (some (.str "bob/x.txt".toList)) (some (.str "alice".toList))).1
      "bob/x.txt".toList rfl rfl rfl (by decide)⟩

theorem s3UploadUrl_present (BUCKET : Option Str) (getSignedUrl : Signer)
    (fileName userId : Str) (hf : fileName ≠ []) (hu : userId ≠ []) :
    s3UploadUrl BUCKET getSignedUrl (some (.str fileName)) (some (.str userId))
      = (match getSignedUrl (.PutObjectCommand BUCKET (userId ++ "/".toList ++ fileName)
            "text/plain".toList) 3600 with
        | .ok uploadUrl =>
          ⟨⟨200, .upload uploadUrl (userId ++ "/".toList ++ fileName)⟩,
            [⟨.PutObjectCommand BUCKET (userId ++ "/".toList ++ fileName)
              "text/plain".toList, 3600⟩]⟩
        | .error _ =>
          ⟨⟨500, .error "failed to generate upload url".toList⟩,
            [⟨.PutObjectCommand BUCKET (userId ++ "/".toList ++ fileName)
              "text/plain".toList, 3600⟩]⟩) := by
  simp only [s3UploadUrl, falsy_str_eq fileName hf, falsy_str_eq userId hu, toStr,
    Bool.or_self, Bool.false_eq_true, if_false]

theorem s3UploadUrl_key (BUCKET : Option Str) (getSignedUrl : Signer)
    (fileName userId : Str) (hf : fileName ≠ []) (hu : userId ≠ []) (k : Str)
    (hkey : (s3UploadUrl BUCKET getSignedUrl (some (.str fileName))
      (some (.str userId))).response.body.key = some k) :
    k = userId ++ "/".toList ++ fileName := by
  rw [s3UploadUrl_present BUCKET getSignedUrl fileName userId hf hu] at hkey
  cases hs : getSignedUrl (.PutObjectCommand BUCKET (userId ++ "/".toList ++ fileName)
    "text/plain".toList) 3600 with
  | ok url =>
    rw [hs] at hkey
    exact (Option.some.inj hkey).symm
  | error e =>
    rw [hs] at hkey
    exact absurd hkey (by simp [Body.key])

/-- C2. Key derivation: for present `fileName` and `userId` the upload handler
invokes the signer exactly once, for a PUT on the key `userId + "/" + fileName`;
with the URL the signer answers it responds 200 with that URL and exactly that
key, and a key in the response is never anything else. -/
theorem upload_key_derivation (BUCKET : Option Str) (getSignedUrl : Signer)
    (fileName userId : Str) (hf : fileName ≠ []) (hu : userId ≠ []) :
    (s3UploadUrl BUCKET getSignedUrl (some (.str fileName)) (some (.str userId))).signed
      = [⟨.PutObjectCommand BUCKET (userId ++ "/".toList ++ fileName) "text/plain".toList,
          3600⟩] ∧
    (∀ url,
      getSignedUrl (.PutObjectCommand BUCKET (userId ++ "/".toList ++ fileName)
        "text/plain".toList) 3600 = .ok url →
      (s3UploadUrl BUCKET getSignedUrl (some (.str fileName)) (some (.str userId))).response
        = ⟨200, .upload url (userId ++ "/".toList ++ fileName)⟩) ∧
    (∀ k,
      (s3UploadUrl BUCKET getSignedUrl (some (.str fileName))
        (some (.str userId))).response.body.key = some k →
      k = userId ++ "/".toList ++ fileName) := by
  refine ⟨?_, ?_, s3UploadUrl_key BUCKET getSignedUrl fileName userId hf hu⟩
  · rw [s3UploadUrl_present BUCKET getSignedUrl fileName userId hf hu]
    cases getSignedUrl (.PutObjectCommand BUCKET (userId ++ "/".toList ++ fileName)
      "text/plain".toList) 3600 <;> rfl
  · intro url hurl
    rw [s3UploadUrl_present BUCKET getSignedUrl fileName userId hf hu, hurl]

/-- C2 at `n.txt` for `alice`: the key is `alice/n.txt`. -/
theorem upload_key_derivation_witness :
    ("n.txt".toList ≠ [] ∧ "alice".toList ≠ []) ∧
    (s3UploadUrl (some "bucket".toList) (fun _ _ => .ok "signed".toList)
      (some (.str "n.txt".toList)) (some (.str "alice".toList))).response
      = ⟨200, .upload "signed".toList "alice/n.txt".toList⟩ :=
  ⟨⟨by decide, by decide⟩,
   (upload_key_derivation (some "bucket".toList) (fun _ _ => .ok "signed".toList)
      "n.txt".toList "alice".toList (by decide) (by decide)).2.1 "signed".toList rfl⟩

/-- C8. Upload validation: when `fileName` or `userId` is absent (undefined or
empty) the upload handler answers 400, the body has no `uploadUrl` and the
signer is not invoked; otherwise it does not answer 400 and invokes the signer
for a PUT on the key `userId + "/" + fileName`. -/
theorem upload_validation (BUCKET : Option Str) (getSignedUrl : Signer)
    (fileName userId : Query) :
    (falsy fileName = true ∨ falsy userId = true →
      (s3UploadUrl BUCKET getSignedUrl fileName userId).response.status = 400 ∧
      (s3UploadUrl BUCKET getSignedUrl fileName userId).response.body.uploadUrl = none ∧
      (s3UploadUrl BUCKET getSignedUrl fileName userId).signed = []) ∧
    (falsy fileName = false ∧ falsy userId = false →
      (s3UploadUrl BUCKET getSignedUrl fileName userId).response.status ≠ 400 ∧
      (s3UploadUrl BUCKET getSignedUrl fileName userId).signed
        = [⟨.PutObjectCommand BUCKET (toStr userId ++ "/".toList ++ toStr fileName)
            "text/plain".toList, 3600⟩]) := by
  constructor
  · intro h
    have hc : (falsy fileName || falsy userId) = true := by
      rcases h with h | h <;> simp [h]
    simp [s3UploadUrl, hc, Body.uploadUrl]
  · rintro ⟨hf, hu⟩
    simp only [s3UploadUrl, hf, hu, Bool.or_self, Bool.false_eq_true, if_false]
    cases getSignedUrl (.PutObjectCommand BUCKET (toStr userId ++ "/".toList ++ toStr fileName)
      "text/plain".toList) 3600 <;> simp

/-- C8 at the request without `fileName`: 400, no `uploadUrl`, no signer call. -/
theorem upload_validation_witness :
    (falsy none = true ∨ falsy (some (.str "alice".toList)) = true) ∧
    (s3UploadUrl (some "bucket".toList) (fun _ _ => .ok "signed".toList)
      none (some (.str "alice".toList))).response.status = 400 ∧
    (s3UploadUrl (some "bucket".toList) (fun _ _ => .ok "signed".toList)
      none (some (.str "alice".toList))).response.body.uploadUrl = none ∧
    (s3UploadUrl (some "bucket".toList) (fun _ _ => .ok "signed".toList)
      none (some (.str "alice".toList))).signed = [] :=
  ⟨Or.inl rfl,
   (upload_validation (some "bucket".toList) (fun _ _ => .ok "signed".toList)
      none (some (.str "alice".toList))).1 (Or.inl rfl)⟩

/-- C10. Owner isolation: for non-empty owner ids `u₁`, `u₂` without `/` and a
non-empty `fileName`, take the key the upload handler returns for
`(fileName, u₁)`.  The download handler called with that key and owner `u₂`
answers 403 without a `downloadUrl` and without invoking the signer when
`u₁ ≠ u₂`; when `u₁ = u₂` it invokes the signer for a GET on that key and
answers 200 with the URL the signer gives. -/
theorem owner_isolation (BUCKET : Option Str) (getSignedUrl : Signer)
    (fileName u₁ u₂ key : Str) (hf : fileName ≠ []) (h₁ : u₁ ≠ []) (h₂ : u₂ ≠ [])
    (hs₁ : '/' ∉ u₁) (hs₂ : '/' ∉ u₂)
    (hkey : (s3UploadUrl BUCKET getSignedUrl (some (.str fileName))
      (some (.str u₁))).response.body.key = some key) :
    (u₁ = u₂ →
      (getDownloadUrl BUCKET getSignedUrl (some (.str key)) (some (.str u₂))).signed
        = [⟨.GetObjectCommand BUCKET key, 3600⟩] ∧
      ∀ url, getSignedUrl (.GetObjectCommand BUCKET key) 3600 = .ok url →
        (getDownloadUrl BUCKET getSignedUrl (some (.str key)) (some (.str u₂))).response
          = ⟨200, .download url⟩) ∧
    (u₁ ≠ u₂ →
      (getDownloadUrl BUCKET getSignedUrl (some (.str key)) (some (.str u₂))).response.status
        = 403 ∧
      (getDownloadUrl BUCKET getSignedUrl (some (.str key))
        (some (.str u₂))).response.body.downloadUrl = none ∧
      (getDownloadUrl BUCKET getSignedUrl (some (.str key)) (some (.str u₂))).signed = []) := by
  have hk : key = u₁ ++ "/".toList ++ fileName :=
    s3UploadUrl_key BUCKET getSignedUrl fileName u₁ hf h₁ key hkey
  have hne : key ≠ [] := by
    rw [hk]
    intro h
    exact h₁ (List.append_eq_nil.mp (List.append_eq_nil.mp h).1).1
  have hu' : falsy (some (.str u₂)) = false := falsy_str_eq u₂ h₂
  constructor
  · intro he
    have hp : (toStr (some (.str u₂)) ++ "/".toList) <+: key := by
      rw [hk, ← he]
      exact List.prefix_append _ _
    rw [getDownloadUrl_allowed BUCKET getSignedUrl key (some (.str u₂)) hne hu' hp]
    constructor
    · cases getSignedUrl (.GetObjectCommand BUCKET key) 3600 <;> rfl
    · intro url hurl
      rw [hurl]
  · intro hne'
    have hp : ¬ (toStr (some (.str u₂)) ++ "/".toList) <+: key := by
      intro hp
      rw [hk] at hp
      exact hne' (owner_of_slash_prefixed u₁ u₂ fileName hs₁ hs₂ hp)
    rw [getDownloadUrl_forbidden BUCKET getSignedUrl key (some (.str u₂)) hne hu' hp]
    exact ⟨rfl, rfl, rfl⟩

/-- C10 at the key of `alice` asked for by `bob`: 403. -/
theorem owner_isolation_witness :
    ("n.txt".toList ≠ [] ∧ "alice".toList ≠ [] ∧ "bob".toList ≠ [] ∧
      '/' ∉ "alice".toList ∧ '/' ∉ "bob".toList ∧
      (s3UploadUrl none (fun _ _ => .ok "signed".toList)
        (some (.str "n.txt".toList)) (some (.str "alice".toList))).response.body.key
        = some "alice/n.txt".toList) ∧
    (getDownloadUrl none (fun _ _ => .ok "signed".toList)
      (some (.str "alice/n.txt".toList)) (some (.str "bob".toList))).response.status = 403 :=
  ⟨⟨by decide, by decide, by decide, by decide, by decide, rfl⟩,
   ((owner_isolation none (fun _ _ => .ok "signed".toList)
      "n.txt".toList "alice".toList "bob".toList "alice/n.txt".toList
      (by decide) (by decide) (by decide) (by decide) (by decide) rfl).2 (by decide)).1⟩

theorem replace_owner_slash (pre k : Str) (h : pre <+: k) :
    replace pre [] k = k.drop pre.length := by
  obtain ⟨rest, rfl⟩ := h
  rw [replace_strips_leading, List.drop_left]

theorem listFiles_ok (BUCKET : Option Str) (send : Sender) (userId : Query)
    (out : ListOutput) (hu : falsy userId = false)
    (hsend : send (.ListObjectsV2Command BUCKET (toStr userId ++ "/".toList)) = .ok out) :
    listFiles BUCKET send userId
      = ⟨200, .files ((out.Contents.getD []).map fun o =>
          { name := replace (toStr userId ++ "/".toList) [] o.Key, key := o.Key })⟩ := by
  simp only [listFiles, hu, Bool.false_eq_true, if_false, hsend]

theorem s3ListObjectsV2_reply (BUCKET : Option Str) (stored : List Str) (pre : Str) :
    ∃ out, s3ListObjectsV2 stored (.ListObjectsV2Command BUCKET pre) = .ok out ∧
      (out.Contents.getD []).map S3Object.Key
        = (stored.filter fun k => startsWith k pre).take maxKeys := by
  refine ⟨_, rfl, ?_⟩
  cases h : (stored.filter fun k => startsWith k pre).take maxKeys with
  | nil => rfl
  | cons k ks =>
    simp only [List.isEmpty_cons, Bool.false_eq_true, if_false, Option.getD_some,
      List.map_map]
    exact List.map_id' _

/-- When one reply has room for every stored key with the prefix, the storage
service answers with exactly those keys, in stored order. -/
theorem s3ListObjectsV2_complete (BUCKET : Option Str) (stored : List Str) (pre : Str)
    (h : (stored.filter fun k => startsWith k pre).length ≤ maxKeys) :
    ∃ out, s3ListObjectsV2 stored (.ListObjectsV2Command BUCKET pre) = .ok out ∧
      (out.Contents.getD []).map S3Object.Key = stored.filter fun k => startsWith k pre := by
  obtain ⟨out, hsend, hkeys⟩ := s3ListObjectsV2_reply BUCKET stored pre
  exact ⟨out, hsend, hkeys.trans (List.take_of_length_le h)⟩

theorem manyKeys_owned :
    (manyKeys.filter fun k => startsWith k ("bob".toList ++ "/".toList)) = manyKeys := by
  apply List.filter_eq_self.mpr
  intro k hk
  obtain ⟨i, -, rfl⟩ := List.mem_map.mp hk
  exact (startsWith_iff _ _).mpr (List.prefix_append _ _)

/-- C5 as stated fails on a store with more keys of one owner than one reply of
the storage service holds: of the 1001 stored keys with the prefix `bob/` the
list handler, which sends one call and follows no continuation, returns 1000
entries. -/
theorem list_shape_beyond_one_reply :
    (manyKeys.filter fun k => decide (("bob".toList ++ "/".toList) <+: k)).length = 1001 ∧
    (listFiles (some "bucket".toList) (s3ListObjectsV2 manyKeys)
      (some (.str "bob".toList))).body.entries.map List.length = some 1000 := by
  constructor
  · have hall : (manyKeys.filter fun k => decide (("bob".toList ++ "/".toList) <+: k))
        = manyKeys := by
      apply List.filter_eq_self.mpr
      intro k hk
      obtain ⟨i, -, rfl⟩ := List.mem_map.mp hk
      exact decide_eq_true (List.prefix_append _ _)
    rw [hall]
    simp [manyKeys]
  · obtain ⟨out, hsend, hkeys⟩ := s3ListObjectsV2_reply (some "bucket".toList) manyKeys
      ("bob".toList ++ "/".toList)
    rw [listFiles_ok (some "bucket".toList) (s3ListObjectsV2 manyKeys)
      (some (.str "bob".toList)) out rfl hsend]
    have hlen : (out.Contents.getD []).length = 1000 := by
      have := congrArg List.length hkeys
      rw [List.length_map, manyKeys_owned, List.length_take] at this
      rw [this]
      simp [manyKeys, maxKeys]
    simp [Body.entries, hlen]

/-- C5, amended. List shape: take a present owner id and a stored sequence of
keys, and let the storage service answer the handler's one `ListObjectsV2` call
(prefix `userId + "/"`) with exactly the stored keys that have that prefix, in
stored order.  Then the list handler answers 200 with, in stored order, one
entry `{name, key}` per stored key that has the prefix and none for any other
key; `name` is the key without its first `userId.length + 1` characters, so that
`userId + "/" + name = key`. -/
theorem list_shape (BUCKET : Option Str) (send : Sender) (userId : Query)
    (stored : List Str) (out : ListOutput)
    (hu : falsy userId = false)
    (hsend : send (.ListObjectsV2Command BUCKET (toStr userId ++ "/".toList)) = .ok out)
    (hreply : (out.Contents.getD []).map S3Object.Key
      = stored.filter fun k => decide ((toStr userId ++ "/".toList) <+: k)) :
    listFiles BUCKET send userId
      = ⟨200, .files ((stored.filter fun k => decide ((toStr userId ++ "/".toList) <+: k)).map
          fun k => { name := k.drop ((toStr userId).length + 1), key := k })⟩ ∧
    ∀ e ∈ (stored.filter fun k => decide ((toStr userId ++ "/".toList) <+: k)).map
          (fun k => ({ name := k.drop ((toStr userId).length + 1), key := k } : FileEntry)),
      toStr userId ++ "/".toList ++ e.name = e.key := by
  have hlen : (toStr userId ++ "/".toList).length = (toStr userId).length + 1 := by
    rw [List.length_append]
    rfl
  constructor
  · rw [listFiles_ok BUCKET send userId out hu hsend, ← hreply, List.map_map]
    congr 2
    apply List.map_congr_left
    intro o ho
    have hmem : o.Key ∈ stored.filter fun k => decide ((toStr userId ++ "/".toList) <+: k) := by
      rw [← hreply]
      exact List.mem_map_of_mem _ ho
    have hp : (toStr userId ++ "/".toList) <+: o.Key :=
      of_decide_eq_true (List.mem_filter.mp hmem).2
    simp only [Function.comp]
    rw [replace_owner_slash _ _ hp, hlen]
  · intro e he
    obtain ⟨k, hk, rfl⟩ := List.mem_map.mp he
    obtain ⟨rest, hrest⟩ := of_decide_eq_true (List.mem_filter.mp hk).2
    show toStr userId ++ "/".toList ++ k.drop ((toStr userId).length + 1) = k
    rw [← hlen]
    conv_lhs => rw [← hrest, List.drop_left]
    exact hrest

/-- C5, amended, at the store `bob/x.txt`, `alice/y.txt`, `bob/z.txt` listed for
`bob`. -/
theorem list_shape_witness :
    (falsy (some (.str "bob".toList)) = false ∧
      s3ListObjectsV2 ["bob/x.txt".toList, "alice/y.txt".toList, "bob/z.txt".toList]
          (.ListObjectsV2Command (some "bucket".toList) ("bob".toList ++ "/".toList))
        = .ok ⟨some [⟨"bob/x.txt".toList⟩, ⟨"bob/z.txt".toList⟩]⟩ ∧
      [("bob/x.txt".toList), ("bob/z.txt".toList)]
        = ["bob/x.txt".toList, "alice/y.txt".toList, "bob/z.txt".toList].filter
            fun k => decide (("bob".toList ++ "/".toList) <+: k)) ∧
    listFiles (some "bucket".toList)
        (s3ListObjectsV2 ["bob/x.txt".toList, "alice/y.txt".toList, "bob/z.txt".toList])
        (some (.str "bob".toList))
      = ⟨200, .files [⟨"x.txt".toList, "bob/x.txt".toList⟩,
          ⟨"z.txt".toList, "bob/z.txt".toList⟩]⟩ :=
  ⟨⟨rfl, rfl, by decide⟩,
   (list_shape (some "bucket".toList)
      (s3ListObjectsV2 ["bob/x.txt".toList, "alice/y.txt".toList, "bob/z.txt".toList])
      (some (.str "bob".toList))
      ["bob/x.txt".toList, "alice/y.txt".toList, "bob/z.txt".toList]
      ⟨some [⟨"bob/x.txt".toList⟩, ⟨"bob/z.txt".toList⟩]⟩ rfl rfl (by decide)).1.trans
      (by decide)⟩

/-! ### The note client: save and open -/

theorem trim_of_whiteSpace (s : Str) (h : ∀ c ∈ s, isWhiteSpace c = true) : trim s = [] := by
  have h1 : s.dropWhile isWhiteSpace = [] := List.dropWhile_eq_nil_iff.mpr h
  simp [trim, h1]

/-- The text is empty after trimming exactly when it is empty or white space
only. -/
theorem trim_eq_nil_iff (s : Str) : trim s = [] ↔ ∀ c ∈ s, isWhiteSpace c = true := by
  constructor
  · intro h
    have h1 : (s.dropWhile isWhiteSpace).reverse.dropWhile isWhiteSpace = [] := by
      simpa [trim] using h
    have h2 : ∀ c ∈ s.dropWhile isWhiteSpace, isWhiteSpace c = true := by
      intro c hc
      exact List.dropWhile_eq_nil_iff.mp h1 c (List.mem_reverse.mpr hc)
    cases hd : s.dropWhile isWhiteSpace with
    | nil => exact List.dropWhile_eq_nil_iff.mp hd
    | cons x xs =>
      have hx : isWhiteSpace x = true := h2 x (by rw [hd]; exact List.mem_cons_self x xs)
      have hnx : ¬ isWhiteSpace x = true := by
        have := List.head_dropWhile_not isWhiteSpace s (by rw [hd]; simp)
        simpa [hd] using this
      exact absurd hx hnx
  · exact trim_of_whiteSpace s

/-- C9. Empty-body save: when the rendered text is empty or holds only white
space (that is, when it is empty after trimming), the save handler shows the
validation alert and does nothing else: the page state is unchanged and no
effect of the run is a network request, whatever the identity state, the date
field and the environment. -/
theorem empty_body_save (w : World) (p : Page)
    (h : ∀ c ∈ p.innerText, isWhiteSpace c = true) :
    saveClick w p = (p, [.alert "Please enter some text to save.".toList]) ∧
    ∀ e ∈ (saveClick w p).2, e.isRequest = false := by
  have hs : saveClick w p = (p, [.alert "Please enter some text to save.".toList]) := by
    simp only [saveClick, trim_of_whiteSpace p.innerText h, List.isEmpty_nil, if_true]
  refine ⟨hs, ?_⟩
  rw [hs]
  intro e he
  rw [List.mem_singleton.mp he]
  rfl

/-- C9 at a body of blanks, a newline and a tab, with every request bound to
succeed. -/
theorem empty_body_save_witness :
    (∀ c ∈ " \n\t ".toList, isWhiteSpace c = true) ∧
    saveClick servingWorld ⟨none, "2024-01-01".toList, " \n\t ".toList, true⟩
      = (⟨none, "2024-01-01".toList, " \n\t ".toList, true⟩,
         [.alert "Please enter some text to save.".toList]) :=
  ⟨by decide,
   (empty_body_save servingWorld ⟨none, "2024-01-01".toList, " \n\t ".toList, true⟩
      (by decide)).1⟩

/-- C3 fails on the code.  Saving on date `2024-01-01` at `09:05:30` builds
the file name `NoteBook[2024-01-01][09:05:30].txt`; on the key
`alice/NoteBook[2024-01-01][09:05:30].txt` the date pattern of the open handler
finds no match, and a successful open leaves the date field as it was
(`2024-01-02` here) instead of setting it to `2024-01-01`. -/
theorem save_open_date_not_repopulated :
    fileName "2024-01-01".toList 9 5 30 = "NoteBook[2024-01-01][09:05:30].txt".toList ∧
    parseDate ("alice".toList ++ "/".toList ++ fileName "2024-01-01".toList 9 5 30) = none ∧
    (notesListClick servingWorld ⟨some "alice".toList, "2024-01-02".toList, [], false⟩
      ("alice".toList ++ "/".toList ++ fileName "2024-01-01".toList 9 5 30)).1
      = ⟨some "alice".toList, "2024-01-02".toList, "hello world".toList, true⟩ := by
  refine ⟨by decide, by decide, by decide⟩

/-- The date pattern does match a bracket that holds more than the date: on
`alice/NoteBook[2024-01-01T09:05:30].txt` it yields `2024-01-01`. -/
theorem parseDate_of_timestamp :
    parseDate "alice/NoteBook[2024-01-01T09:05:30].txt".toList = some "2024-01-01".toList := by
  decide

theorem matchItems_dateRegex_other (c : Char) (cs : Str) (st : MatchState) (h : c ≠ '[') :
    matchItems dateRegex (c :: cs) st = none := by
  simp [dateRegex, matchItems, Atom.test, h]

theorem search_dateRegex_skip (pre s : Str) (pos : Nat) (h : ∀ c ∈ pre, c ≠ '[') :
    search dateRegex (pre ++ s) pos = search dateRegex s (pos + pre.length) := by
  induction pre generalizing pos with
  | nil => rfl
  | cons c cs ih =>
    have hc : c ≠ '[' := h c (List.mem_cons_self c cs)
    have hcs : ∀ x ∈ cs, x ≠ '[' := fun x hx => h x (List.mem_cons_of_mem c hx)
    show search dateRegex (c :: (cs ++ s)) pos = _
    rw [search, matchItems_dateRegex_other c (cs ++ s) _ hc, ih (pos + 1) hcs]
    simp only [List.length_cons]
    congr 1
    omega

theorem search_dateRegex_none (s : Str) (pos : Nat) (h : ∀ c ∈ s, c ≠ '[') :
    search dateRegex s pos = none := by
  have := search_dateRegex_skip s [] pos h
  rw [List.append_nil] at this
  rw [this]
  simp [search, dateRegex, matchItems]

/-- Right after the ten characters of a date the pattern needs a character
other than `]`. -/
theorem matchItems_dateRegex_closed (a b c d e f g h i j : Char) (rest : Str)
    (st : MatchState) :
    matchItems dateRegex ('[' :: a :: b :: c :: d :: e :: f :: g :: h :: i :: j :: ']' :: rest) st
      = none := by
  simp only [dateRegex, List.replicate, List.cons_append, List.nil_append, matchItems,
    plusLoop, Atom.test]
  simp

/-- The pattern needs `-` as the fifth character after `[`. -/
theorem matchItems_dateRegex_no_dash (t : Str) (st : MatchState) (h : ∀ c ∈ t, c ≠ '-') :
    matchItems dateRegex ('[' :: t) st = none := by
  rcases t with _ | ⟨a, _ | ⟨b, _ | ⟨c, _ | ⟨d, _ | ⟨e, t⟩⟩⟩⟩⟩ <;>
    simp only [dateRegex, List.replicate, List.cons_append, List.nil_append, matchItems,
      Atom.test] <;> (repeat' split) <;> first | rfl | skip
  all_goals simp_all
theorem split_no_sep (sep : Char) (s : Str) (h : sep ∉ s) : split sep s = [s] := by
  induction s with
  | nil => rfl
  | cons c cs ih =>
    have hc : c ≠ sep := fun e => h (e ▸ List.mem_cons_self c cs)
    have hcs : sep ∉ cs := fun hm => h (List.mem_cons_of_mem c hm)
    simp only [split, hc, if_false, ih hcs]

theorem split_ne_nil (sep : Char) (s : Str) : split sep s ≠ [] := by
  induction s with
  | nil => simp [split]
  | cons c cs ih =>
    simp only [split]
    split
    · simp
    · split <;> simp

theorem split_append_sep (sep : Char) (a b : Str) :
    ∃ l, l ≠ [] ∧ split sep (a ++ sep :: b) = l ++ split sep b := by
  induction a with
  | nil => exact ⟨[[]], by simp, by simp [split]⟩
  | cons c cs ih =>
    obtain ⟨l, hl, hsp⟩ := ih
    by_cases hc : c = sep
    · refine ⟨[] :: l, by simp, ?_⟩
      show split sep (c :: (cs ++ sep :: b)) = _
      simp only [split, hc, if_true]
      rw [hsp]
      rfl
    · cases l with
      | nil => exact absurd rfl hl
      | cons seg rest =>
        refine ⟨(c :: seg) :: rest, by simp, ?_⟩
        show split sep (c :: (cs ++ sep :: b)) = _
        simp only [split, hc, if_false]
        rw [hsp]
        rfl

theorem split_getLast (sep : Char) (a b : Str) :
    (split sep (a ++ sep :: b)).getLast? = (split sep b).getLast? := by
  obtain ⟨l, _, hsp⟩ := split_append_sep sep a b
  rw [hsp]
  exact List.getLast?_append_of_ne_nil l (split_ne_nil sep b)

theorem two_digits (n : Nat) (h : n < 60) :
    ∀ c ∈ padStart 2 "0".toList (ofNat n), c ≠ '-' ∧ c ≠ '[' ∧ c ≠ '/' := by
  revert n
  decide
theorem orElse_nil (x : Str) : orElse x [] = x := by
  cases x <;> rfl

theorem fileName_eq (d : Str) (h m s : Nat) :
    fileName d h m s = "NoteBook".toList ++ ('[' :: (d ++ (']' :: '[' ::
      (padStart 2 "0".toList (ofNat h) ++ ':' :: (padStart 2 "0".toList (ofNat m) ++ ':' ::
        (padStart 2 "0".toList (ofNat s) ++ "].txt".toList)))))) := by
  simp only [fileName, List.append_assoc]
  rfl

theorem digit_ne (c : Char) (h : Atom.digit.test c = true) : c ≠ '[' ∧ c ≠ '/' := by
  constructor <;> (rintro rfl; revert h; decide)

/-- The tail of a saved file name, from the time on, holds no `-`, `[` or `/`. -/
theorem time_tail (h m s : Nat) (hh : h < 60) (hm : m < 60) (hs : s < 60) :
    ∀ c ∈ padStart 2 "0".toList (ofNat h) ++ ':' :: (padStart 2 "0".toList (ofNat m) ++ ':' ::
        (padStart 2 "0".toList (ofNat s) ++ "].txt".toList)),
      c ≠ '-' ∧ c ≠ '[' ∧ c ≠ '/' := by
  intro c hc
  simp only [List.mem_append, List.mem_cons] at hc
  rcases hc with hc | rfl | hc | rfl | hc | hc
  · exact two_digits h hh c hc
  · decide
  · exact two_digits m hm c hc
  · decide
  · exact two_digits s hs c hc
  · revert c
    decide

/-- For every owner id, every date of the form `YYYY-MM-DD` and every time of
day, the date pattern of the open handler finds no match on the key under which
the save handler stores the note. -/
theorem parseDate_of_saved (owner : Str) (y₁ y₂ y₃ y₄ m₁ m₂ d₁ d₂ : Char)
    (hd : ∀ c ∈ [y₁, y₂, y₃, y₄, m₁, m₂, d₁, d₂], Atom.digit.test c = true)
    (h m s : Nat) (hh : h < 24) (hm : m < 60) (hs : s < 60) :
    parseDate (owner ++ "/".toList ++
      fileName [y₁, y₂, y₃, y₄, '-', m₁, m₂, '-', d₁, d₂] h m s) = none := by
  have hdate : ∀ c ∈ [y₁, y₂, y₃, y₄, '-', m₁, m₂, '-', d₁, d₂], c ≠ '[' ∧ c ≠ '/' := by
    intro c hc
    simp only [List.mem_cons, List.mem_singleton, List.not_mem_nil, or_false] at hc
    rcases hc with rfl | rfl | rfl | rfl | rfl | rfl | rfl | rfl | rfl | rfl
    all_goals first | decide | exact digit_ne _ (hd _ (by simp))
  have htail := time_tail h m s (by omega) hm hs
  have hname := fileName_eq [y₁, y₂, y₃, y₄, '-', m₁, m₂, '-', d₁, d₂] h m s
  have hslash : '/' ∉ fileName [y₁, y₂, y₃, y₄, '-', m₁, m₂, '-', d₁, d₂] h m s := by
    rw [hname]
    intro hmem
    rcases List.mem_append.mp hmem with h1 | h1
    · revert h1; decide
    · rcases List.mem_cons.mp h1 with h2 | h2
      · revert h2; decide
      · rcases List.mem_append.mp h2 with h3 | h3
        · exact (hdate _ h3).2 rfl
        · rcases List.mem_cons.mp h3 with h4 | h4
          · revert h4; decide
          · rcases List.mem_cons.mp h4 with h5 | h5
            · revert h5; decide
            · exact (htail _ h5).2.2 rfl
  have hseg : (split '/' (owner ++ "/".toList ++
      fileName [y₁, y₂, y₃, y₄, '-', m₁, m₂, '-', d₁, d₂] h m s)).getLast?
      = some (fileName [y₁, y₂, y₃, y₄, '-', m₁, m₂, '-', d₁, d₂] h m s) := by
    have : owner ++ "/".toList ++ fileName [y₁, y₂, y₃, y₄, '-', m₁, m₂, '-', d₁, d₂] h m s
        = owner ++ '/' :: fileName [y₁, y₂, y₃, y₄, '-', m₁, m₂, '-', d₁, d₂] h m s := by
      rw [List.append_assoc]; rfl
    rw [this, split_getLast, split_no_sep _ _ hslash]
    rfl
  have hsearch : search dateRegex
      (fileName [y₁, y₂, y₃, y₄, '-', m₁, m₂, '-', d₁, d₂] h m s) 0 = none := by
    rw [hname, search_dateRegex_skip _ _ _ (by decide)]
    show search dateRegex ('[' :: y₁ :: y₂ :: y₃ :: y₄ :: '-' :: m₁ :: m₂ :: '-' :: d₁ :: d₂ ::
      ']' :: '[' :: _) _ = none
    rw [search, matchItems_dateRegex_closed]
    show search dateRegex ([y₁, y₂, y₃, y₄, '-', m₁, m₂, '-', d₁, d₂, ']'] ++ '[' :: _) _ = none
    rw [search_dateRegex_skip _ _ _ (by
      intro c hc
      rw [show [y₁, y₂, y₃, y₄, '-', m₁, m₂, '-', d₁, d₂, ']']
        = [y₁, y₂, y₃, y₄, '-', m₁, m₂, '-', d₁, d₂] ++ [']'] from rfl, List.mem_append] at hc
      rcases hc with hc | hc
      · exact (hdate c hc).1
      · rw [List.mem_singleton.mp hc]; decide)]
    rw [search, matchItems_dateRegex_no_dash _ _ (fun c hc => (htail c hc).1)]
    exact search_dateRegex_none _ _ (fun c hc => (htail c hc).2.1)
  simp only [parseDate, hseg, Option.getD_some, orElse_nil, hsearch]

/-! ### The editor -/

theorem markupL_eq_map (cs : List Node) : Node.markup.markupL cs = cs.map Node.markup := by
  induction cs with
  | nil => rfl
  | cons c cs ih => simp [Node.markup.markupL, ih]

theorem descendantsL_eq (cs : List Node) :
    Node.descendants.descendantsL cs = cs.flatMap fun c => c :: c.descendants := by
  induction cs with
  | nil => rfl
  | cons c cs ih => simp [Node.descendants.descendantsL, ih]

theorem mem_descendants_elem (n : Node) (i : Nat) (tag : Str) (attrs style : List (Str × Str))
    (cs : List Node) :
    n ∈ (Node.elem i tag attrs style cs).descendants ↔ ∃ c ∈ cs, n = c ∨ n ∈ c.descendants := by
  simp [Node.descendants, descendantsL_eq, List.mem_flatMap]

theorem take_succ_insert {α : Type} (l : List α) (x : α) (n : Nat) (h : n ≤ l.length) :
    (l.take n ++ x :: l.drop n).take (n + 1) = l.take n ++ [x] ∧
    (l.take n ++ x :: l.drop n).drop (n + 1) = l.drop n := by
  have hl : (l.take n).length = n := by simp [List.length_take, h]
  constructor
  · rw [List.take_append_eq_append_take, hl]
    simp [List.take_of_length_le, hl]
  · rw [List.drop_append_eq_append_drop, hl]
    simp [List.drop_of_length_le, hl]

theorem insertNode_isElem (new : Node) (fresh : Nat) (path : List Nat) (offset : Nat)
    (root root' : Node) (after : Point)
    (h : Node.insertNode new fresh path offset root = some (root', after)) :
    ∃ i tag attrs style cs cs', root = .elem i tag attrs style cs ∧
      root' = .elem i tag attrs style cs' := by
  cases root with
  | text i data => cases path <;> simp [Node.insertNode] at h
  | elem i tag attrs style cs =>
    cases path with
    | nil =>
      simp only [Node.insertNode] at h
      split at h
      · simp at h
        exact ⟨i, tag, attrs, style, cs, _, rfl, h.1.symm⟩
      · simp at h
    | cons k rest =>
      simp only [Node.insertNode] at h
      split at h
      · simp at h
      · split at h
        · simp at h
          exact ⟨i, tag, attrs, style, cs, _, rfl, h.1.symm⟩
        · simp at h
      · split at h
        · simp at h
          exact ⟨i, tag, attrs, style, cs, _, rfl, h.1.symm⟩
        · simp at h

theorem insertNode_caret (new : Node) (fresh : Nat) (path : List Nat) (offset : Nat)
    (root : Node) (parent : List Nat) (before after : List Markup)
    (h : Node.caret path offset root = some (parent, before, after)) :
    ∃ root', Node.insertNode new fresh path offset root
        = some (root', ⟨parent, before.length + 1⟩) ∧
      Node.caret parent (before.length + 1) root'
        = some (parent, before ++ [new.markup], after) := by
  induction path generalizing root parent with
  | nil =>
    cases root with
    | text i data => simp [Node.caret] at h
    | elem i tag attrs style cs =>
      simp only [Node.caret] at h
      split at h
      · rename_i hle
        simp only [Option.some.injEq, Prod.mk.injEq] at h
        obtain ⟨rfl, rfl, rfl⟩ := h
        have hlen : ((cs.take offset).map Node.markup).length = offset := by
          simp [List.length_take, hle]
        have hts := take_succ_insert cs new offset hle
        refine ⟨.elem i tag attrs style (cs.take offset ++ new :: cs.drop offset), ?_, ?_⟩
        · simp only [Node.insertNode, hle, if_true, hlen]
        · have hle' : offset + 1 ≤ (cs.take offset ++ new :: cs.drop offset).length := by
            simp [List.length_take, hle]
          simp only [Node.caret, hlen, hle', if_true, hts.1, hts.2, List.map_append,
            List.map_cons, List.map_nil]
      · simp at h
  | cons k rest ih =>
    cases root with
    | text i data => simp [Node.caret] at h
    | elem i tag attrs style cs =>
      simp only [Node.caret] at h
      split at h
      · simp at h
      · rename_i t data hk
        split at h
        · rename_i hcond
          simp only [Option.some.injEq, Prod.mk.injEq] at h
          obtain ⟨rfl, rfl, rfl⟩ := h
          have hklt : k < cs.length := by
            by_contra hge
            rw [List.getElem?_eq_none (Nat.le_of_not_lt hge)] at hk
            simp at hk
          have hlen : ((cs.take k).map Node.markup ++ [Markup.text (data.take offset)]).length
              = k + 1 := by
            simp [List.length_take]
            omega
          refine ⟨.elem i tag attrs style (cs.take k ++ Node.text t (data.take offset) :: new ::
            Node.text fresh (data.drop offset) :: cs.drop (k + 1)), ?_, ?_⟩
          · simp only [Node.insertNode, hk, hcond, if_true, hlen]
          · have hsplit : cs.take k ++ Node.text t (data.take offset) :: new ::
                Node.text fresh (data.drop offset) :: cs.drop (k + 1)
                = (cs.take k ++ [Node.text t (data.take offset), new]) ++
                  (Node.text fresh (data.drop offset) :: cs.drop (k + 1)) := by simp
            have hl2 : (cs.take k ++ [Node.text t (data.take offset), new]).length = k + 2 := by
              simp [List.length_take]
              omega
            have htake : (cs.take k ++ Node.text t (data.take offset) :: new ::
                Node.text fresh (data.drop offset) :: cs.drop (k + 1)).take (k + 1 + 1)
                = cs.take k ++ [Node.text t (data.take offset), new] := by
              rw [hsplit, List.take_append_eq_append_take, hl2]
              simp [List.take_of_length_le, hl2]
            have hdrop : (cs.take k ++ Node.text t (data.take offset) :: new ::
                Node.text fresh (data.drop offset) :: cs.drop (k + 1)).drop (k + 1 + 1)
                = Node.text fresh (data.drop offset) :: cs.drop (k + 1) := by
              rw [hsplit, List.drop_append_eq_append_drop, hl2]
              simp [List.drop_of_length_le, hl2]
            have hle' : k + 1 + 1 ≤ (cs.take k ++ Node.text t (data.take offset) :: new ::
                Node.text fresh (data.drop offset) :: cs.drop (k + 1)).length := by
              simp [List.length_take]
              omega
            simp only [Node.caret, hlen, hle', if_true, htake, hdrop, List.map_append,
              List.map_cons, List.map_nil, Node.markup, List.append_assoc, List.cons_append,
              List.nil_append]
        · simp at h
      · rename_i c hnot hk
        split at h
        · rename_i r hr
          simp only [Option.some.injEq, Prod.mk.injEq] at h
          obtain ⟨rfl, rfl, rfl⟩ := h
          obtain ⟨c', hins, hcar⟩ := ih c r.1 hr
          obtain ⟨ci, ctag, cattrs, cstyle, ccs, ccs', hc, hc'⟩ :=
            insertNode_isElem new fresh rest offset c c' _ hins
          have hklt : k < cs.length := by
            by_contra hge
            rw [List.getElem?_eq_none (Nat.le_of_not_lt hge)] at hk
            simp at hk
          subst hc
          subst hc'
          refine ⟨.elem i tag attrs style (cs.set k (Node.elem ci ctag cattrs cstyle ccs')), ?_, ?_⟩
          · simp only [Node.insertNode, hk, hins]
          · have hget : (cs.set k (Node.elem ci ctag cattrs cstyle ccs'))[k]?
                = some (Node.elem ci ctag cattrs cstyle ccs') := by
              simp [List.getElem?_set, hklt]
            simp only [Node.caret, hget, hcar]
        · simp at h

theorem querySelectorAll_eq_nil (root : Node) :
    querySelectorAll root = [] ↔ ∀ n ∈ root.descendants, n.isFontSize = false := by
  simp [querySelectorAll, List.filter_eq_nil_iff]

theorem insertNode_isFontSize (new : Node) (fresh : Nat) (path : List Nat) (offset : Nat)
    (root root' : Node) (after : Point)
    (h : Node.insertNode new fresh path offset root = some (root', after)) :
    root'.isFontSize = root.isFontSize := by
  obtain ⟨i, tag, attrs, style, cs, cs', rfl, rfl⟩ :=
    insertNode_isElem new fresh path offset root root' after h
  rfl

theorem insertNode_clean (new : Node) (fresh : Nat) (path : List Nat) (offset : Nat)
    (root root' : Node) (after : Point)
    (hnew : new.isFontSize = false) (hnew' : ∀ n ∈ new.descendants, n.isFontSize = false)
    (hroot : ∀ n ∈ root.descendants, n.isFontSize = false)
    (h : Node.insertNode new fresh path offset root = some (root', after)) :
    ∀ n ∈ root'.descendants, n.isFontSize = false := by
  induction path generalizing root root' after with
  | nil =>
    cases root with
    | text i data => simp [Node.insertNode] at h
    | elem i tag attrs style cs =>
      simp only [Node.insertNode] at h
      split at h
      · simp only [Option.some.injEq, Prod.mk.injEq] at h
        obtain ⟨rfl, -⟩ := h
        intro n hn
        rw [mem_descendants_elem] at hn
        obtain ⟨c, hc, hn⟩ := hn
        rw [List.mem_append, List.mem_cons] at hc
        rcases hc with hc | rfl | hc
        · exact hroot n ((mem_descendants_elem ..).mpr ⟨c, List.mem_of_mem_take hc, hn⟩)
        · rcases hn with rfl | hn
          · exact hnew
          · exact hnew' n hn
        · exact hroot n ((mem_descendants_elem ..).mpr ⟨c, List.mem_of_mem_drop hc, hn⟩)
      · simp at h
  | cons k rest ih =>
    cases root with
    | text i data => simp [Node.insertNode] at h
    | elem i tag attrs style cs =>
      simp only [Node.insertNode] at h
      split at h
      · simp at h
      · split at h
        · simp only [Option.some.injEq, Prod.mk.injEq] at h
          obtain ⟨rfl, -⟩ := h
          intro n hn
          rw [mem_descendants_elem] at hn
          obtain ⟨c, hc, hn⟩ := hn
          simp only [List.mem_append, List.mem_cons] at hc
          rcases hc with hc | rfl | rfl | rfl | hc
          · exact hroot n ((mem_descendants_elem ..).mpr ⟨c, List.mem_of_mem_take hc, hn⟩)
          · rcases hn with rfl | hn
            · rfl
            · simp [Node.descendants] at hn
          · rcases hn with rfl | hn
            · exact hnew
            · exact hnew' n hn
          · rcases hn with rfl | hn
            · rfl
            · simp [Node.descendants] at hn
          · exact hroot n ((mem_descendants_elem ..).mpr ⟨c, List.mem_of_mem_drop hc, hn⟩)
        · simp at h
      · rename_i c hnot hk
        split at h
        · rename_i c' aft hins
          simp only [Option.some.injEq, Prod.mk.injEq] at h
          obtain ⟨rfl, -⟩ := h
          have hcmem : c ∈ cs := List.getElem?_mem hk
          have hc : ∀ n ∈ c.descendants, n.isFontSize = false := fun n hn =>
            hroot n ((mem_descendants_elem ..).mpr ⟨c, hcmem, Or.inr hn⟩)
          have hc' := ih c c' aft hc hins
          have hfont : c'.isFontSize = false := by
            rw [insertNode_isFontSize new fresh rest offset c c' aft hins]
            exact hroot c ((mem_descendants_elem ..).mpr ⟨c, hcmem, Or.inl rfl⟩)
          intro n hn
          rw [mem_descendants_elem] at hn
          obtain ⟨x, hx, hn⟩ := hn
          rcases List.mem_or_eq_of_mem_set hx with hx | rfl
          · exact hroot n ((mem_descendants_elem ..).mpr ⟨x, hx, hn⟩)
          · rcases hn with rfl | hn
            · exact hfont
            · exact hc' n hn
        · simp at h

theorem set_of_getElem? {α : Type} (l : List α) (k : Nat) (a : α) (h : l[k]? = some a) :
    l.set k a = l := by
  induction l generalizing k with
  | nil => rfl
  | cons x xs ih =>
    cases k with
    | zero =>
      simp only [List.getElem?_cons_zero, Option.some.injEq] at h
      rw [List.set_cons_zero, h]
    | succ k =>
      simp only [List.getElem?_cons_succ] at h
      rw [List.set_cons_succ, ih k h]

theorem markup_text (i : Nat) (data : Str) : (Node.text i data).markup = .text data := rfl

theorem markup_elem (i : Nat) (tag : Str) (attrs style : List (Str × Str)) (cs : List Node) :
    (Node.elem i tag attrs style cs).markup = .elem tag attrs style (cs.map Node.markup) := by
  simp only [Node.markup, markupL_eq_map]

theorem withChildrenAt_caret (path : List Nat) (offset : Nat) (root : Node)
    (left right : List Markup)
    (h : Node.caret path offset root = some (path, left, right)) :
    Markup.withChildrenAt path (left ++ right) root.markup = some root.markup := by
  induction path generalizing root with
  | nil =>
    cases root with
    | text i data => simp [Node.caret] at h
    | elem i tag attrs style cs =>
      simp only [Node.caret] at h
      split at h
      · simp only [Option.some.injEq, Prod.mk.injEq, true_and] at h
        obtain ⟨rfl, rfl⟩ := h
        rw [markup_elem, ← List.map_append, List.take_append_drop]
        rfl
      · simp at h
  | cons k rest ih =>
    cases root with
    | text i data => simp [Node.caret] at h
    | elem i tag attrs style cs =>
      simp only [Node.caret] at h
      split at h
      · simp at h
      · split at h <;> simp at h
      · rename_i c hnot hk
        split at h
        · rename_i r hr
          simp only [Option.some.injEq, Prod.mk.injEq, List.cons.injEq, true_and] at h
          obtain ⟨h1, rfl, rfl⟩ := h
          have hr' : Node.caret rest offset c = some (rest, r.2.1, r.2.2) := by
            rw [hr, ← h1]
          have hc := ih c hr'
          have hget : (cs.map Node.markup)[k]? = some c.markup := by
            rw [List.getElem?_map, hk]
            rfl
          have hset : (cs.map Node.markup).set k c.markup = cs.map Node.markup := by
            rw [← List.map_set]
            congr 1
            exact set_of_getElem? cs k c hk
          rw [markup_elem]
          simp only [Markup.withChildrenAt, hget, hc, hset]
        · simp at h

theorem insertNode_markup (new : Node) (fresh : Nat) (path : List Nat) (offset : Nat)
    (root root' : Node) (parent : List Nat) (before after : List Markup) (pt : Point)
    (h : Node.caret path offset root = some (parent, before, after))
    (hins : Node.insertNode new fresh path offset root = some (root', pt)) :
    Markup.withChildrenAt parent (before ++ [new.markup] ++ after) root.markup
      = some root'.markup := by
  induction path generalizing root root' parent pt with
  | nil =>
    cases root with
    | text i data => simp [Node.caret] at h
    | elem i tag attrs style cs =>
      simp only [Node.caret] at h
      split at h
      · rename_i hle
        simp only [Option.some.injEq, Prod.mk.injEq] at h
        obtain ⟨rfl, rfl, rfl⟩ := h
        simp only [Node.insertNode, hle, if_true, Option.some.injEq, Prod.mk.injEq] at hins
        obtain ⟨rfl, -⟩ := hins
        simp only [markup_elem, Markup.withChildrenAt, List.map_append, List.map_cons,
          List.append_assoc, List.singleton_append]
      · simp at h
  | cons k rest ih =>
    cases root with
    | text i data => simp [Node.caret] at h
    | elem i tag attrs style cs =>
      simp only [Node.caret] at h
      split at h
      · simp at h
      · rename_i t data hk
        split at h
        · rename_i hcond
          simp only [Option.some.injEq, Prod.mk.injEq] at h
          obtain ⟨rfl, rfl, rfl⟩ := h
          simp only [Node.insertNode, hk, hcond, if_true, Option.some.injEq,
            Prod.mk.injEq] at hins
          obtain ⟨rfl, -⟩ := hins
          simp only [markup_elem, markup_text, Markup.withChildrenAt, List.map_append,
            List.map_cons, List.append_assoc, List.singleton_append, List.cons_append,
            List.nil_append]
        · simp at h
      · rename_i c hnot hk
        split at h
        · rename_i r hr
          simp only [Option.some.injEq, Prod.mk.injEq] at h
          obtain ⟨rfl, rfl, rfl⟩ := h
          simp only [Node.insertNode, hk] at hins
          split at hins
          · rename_i c' aft hc'
            simp only [Option.some.injEq, Prod.mk.injEq] at hins
            obtain ⟨rfl, -⟩ := hins
            have hrec := ih c c' r.1 aft hr hc'
            have hget : (cs.map Node.markup)[k]? = some c.markup := by
              rw [List.getElem?_map, hk]
              rfl
            rw [markup_elem, markup_elem]
            simp only [Markup.withChildrenAt, hget, hrec, List.map_set]
          · simp at hins
        · simp at h

theorem withChildrenAt_again (path : List Nat) (ms ms' : List Markup) (m m' : Markup)
    (h : Markup.withChildrenAt path ms m = some m') :
    Markup.withChildrenAt path ms' m' = Markup.withChildrenAt path ms' m := by
  induction path generalizing m m' with
  | nil =>
    cases m with
    | text data => simp [Markup.withChildrenAt] at h
    | elem tag attrs style cs =>
      simp only [Markup.withChildrenAt, Option.some.injEq] at h
      subst h
      rfl
  | cons k rest ih =>
    cases m with
    | text data => simp [Markup.withChildrenAt] at h
    | elem tag attrs style cs =>
      simp only [Markup.withChildrenAt] at h
      split at h
      · simp at h
      · rename_i c hk
        split at h
        · rename_i c' hc'
          simp only [Option.some.injEq] at h
          subst h
          have hklt : k < cs.length := by
            by_contra hge
            rw [List.getElem?_eq_none (Nat.le_of_not_lt hge)] at hk
            simp at hk
          have hget : (cs.set k c')[k]? = some c' := by
            simp [List.getElem?_set, hklt]
          simp only [Markup.withChildrenAt, hget, hk, ih c c' hc', List.set_set]
        · simp at h

theorem replaceFontTags_of_clean (d : Dom) (h : querySelectorAll d.content = []) :
    replaceFontTags d = d := by
  simp [replaceFontTags, h, replaceEach]

theorem insertAtCaret_spec (b : Browser) (ed : Editor) (p : Point) (new : Node)
    (parent : List Nat) (before after : List Markup)
    (hcaret : Node.caret p.path p.offset ed.dom.content = some (parent, before, after))
    (hclean : querySelectorAll ed.dom.content = [])
    (hnew : new.isFontSize = false) (hnew' : ∀ n ∈ new.descendants, n.isFontSize = false) :
    (insertAtCaret b ed (Range.at p) new).dom.selection
      = some (Range.at ⟨parent, before.length + 1⟩) ∧
    Node.caret parent (before.length + 1) (insertAtCaret b ed (Range.at p) new).dom.content
      = some (parent, before ++ [new.markup], after) ∧
    (insertAtCaret b ed (Range.at p) new).currentFontSize = ed.currentFontSize ∧
    querySelectorAll (insertAtCaret b ed (Range.at p) new).dom.content = [] ∧
    Markup.withChildrenAt parent (before ++ [new.markup] ++ after) ed.dom.content.markup
      = some (insertAtCaret b ed (Range.at p) new).dom.content.markup := by
  obtain ⟨root', hins, hcar⟩ :=
    insertNode_caret new (ed.dom.nextId + 2) p.path p.offset ed.dom.content parent before after
      hcaret
  have hcl : querySelectorAll root' = [] :=
    (querySelectorAll_eq_nil root').mpr
      (insertNode_clean new _ _ _ _ _ _ hnew hnew'
        ((querySelectorAll_eq_nil _).mp hclean) hins)
  have hrun : insertAtCaret b ed (Range.at p) new
      = { ed with
          dom := { ed.dom with
            content := root', nextId := ed.dom.nextId + 3,
            selection := some (Range.at ⟨parent, before.length + 1⟩),
            savedRange := some (Range.at ⟨parent, before.length + 1⟩) } } := by
    simp only [insertAtCaret, Range.at, if_true, hins]
    rw [replaceFontTags_of_clean _ hcl]
    rfl
  rw [hrun]
  exact ⟨rfl, hcar, rfl, hcl,
    insertNode_markup new _ _ _ _ _ _ _ _ _ hcaret hins⟩

theorem shape_of_span (i j : Nat) (size data : Str) (hne : size ≠ []) :
    (Node.elem i "span".toList [] (fontSizeStyle (.str size))
      (if data.isEmpty then [] else [.text j data])).markup
      = Typed.shape size (.text false data) ∧
    (Node.elem i "span".toList [] (fontSizeStyle (.str size))
      (if data.isEmpty then [] else [.text j data])).markup
      = Typed.shape size (.text true data) := by
  cases size with
  | nil => exact absurd rfl hne
  | cons c cs => cases data <;> exact ⟨rfl, rfl⟩

/-- One typing event under the forced size: the new node lands left of the
caret, after what was there. -/
theorem typed_step (b : Browser) (ed : Editor) (size : Str) (p : Point) (t : Typed)
    (parent : List Nat) (before after : List Markup)
    (hsize : ed.currentFontSize = .str size) (hne : size ≠ [])
    (hsel : ed.dom.selection = some (Range.at p))
    (hcaret : Node.caret p.path p.offset ed.dom.content = some (parent, before, after))
    (hclean : querySelectorAll ed.dom.content = []) :
    (handle b ed t.event).currentFontSize = .str size ∧
    (handle b ed t.event).dom.selection = some (Range.at ⟨parent, before.length + 1⟩) ∧
    Node.caret parent (before.length + 1) (handle b ed t.event).dom.content
      = some (parent, before ++ [t.shape size], after) ∧
    querySelectorAll (handle b ed t.event).dom.content = [] ∧
    Markup.withChildrenAt parent (before ++ [t.shape size] ++ after) ed.dom.content.markup
      = some (handle b ed t.event).dom.content.markup := by
  obtain ⟨⟨content, detached, nextId, sel, saved⟩, cfs, timers⟩ := ed
  simp only at hsize hsel hcaret hclean
  subst hsize
  subst hsel
  have hf : (Value.str size).falsy = false := by
    cases size with
    | nil => exact absurd rfl hne
    | cons c cs => rfl
  cases t with
  | text composed data =>
    have htext : (if absent (some data) = true then [] else data) = data := by
      cases data <;> rfl
    have hrun : handle b ⟨⟨content, detached, nextId, some (Range.at p), saved⟩,
            .str size, timers⟩ (Typed.event (.text composed data))
        = insertAtCaret b ⟨⟨content, detached, nextId, some (Range.at p), saved⟩,
            .str size, timers⟩ (Range.at p)
            (Node.elem nextId "span".toList [] (fontSizeStyle (.str size))
              (if data.isEmpty then [] else [.text (nextId + 1) data])) := by
      cases composed <;>
        simp only [Typed.event, handle, beforeinput, hf, htext, Option.getD_some,
          Bool.false_eq_true, if_false, decide_True, Bool.true_or, Bool.or_true, if_true]
    have hspec := insertAtCaret_spec b
      ⟨⟨content, detached, nextId, some (Range.at p), saved⟩, .str size, timers⟩ p
      (Node.elem nextId "span".toList [] (fontSizeStyle (.str size))
        (if data.isEmpty then [] else [.text (nextId + 1) data]))
      parent before after hcaret hclean rfl
      (by
        intro n hn
        cases data with
        | nil => simp [Node.descendants, Node.descendants.descendantsL] at hn
        | cons c cs =>
          simp [Node.descendants, Node.descendants.descendantsL] at hn
          rw [hn]
          rfl)
    rw [hrun]
    have hshape := shape_of_span nextId (nextId + 1) size data hne
    have hsh : (Node.elem nextId "span".toList [] (fontSizeStyle (.str size))
        (if data.isEmpty then [] else [.text (nextId + 1) data])).markup
        = Typed.shape size (.text composed data) := by
      cases composed
      · exact hshape.1
      · exact hshape.2
    rw [hsh] at hspec
    exact ⟨hspec.2.2.1, hspec.1, hspec.2.1, hspec.2.2.2.1, hspec.2.2.2.2⟩
  | paragraph =>
    have hrun : handle b ⟨⟨content, detached, nextId, some (Range.at p), saved⟩,
            .str size, timers⟩ (Typed.event .paragraph)
        = insertAtCaret b ⟨⟨content, detached, nextId, some (Range.at p), saved⟩,
            .str size, timers⟩ (Range.at p)
            (Node.elem nextId "br".toList [] [] []) := by
      have h1 : ("insertParagraph".toList = "insertText".toList) = False := by decide
      have h2 : ("insertParagraph".toList = "insertCompositionText".toList) = False := by
        decide
      simp only [Typed.event, handle, beforeinput, hf, Bool.false_eq_true, if_false, h1, h2,
        decide_False, Bool.or_self, decide_True, if_true]
    have hspec := insertAtCaret_spec b
      ⟨⟨content, detached, nextId, some (Range.at p), saved⟩, .str size, timers⟩ p
      (Node.elem nextId "br".toList [] [] [])
      parent before after hcaret hclean rfl
      (by
        intro n hn
        simp [Node.descendants, Node.descendants.descendantsL] at hn)
    rw [hrun]
    exact ⟨hspec.2.2.1, hspec.1, hspec.2.1, hspec.2.2.2.1, hspec.2.2.2.2⟩

theorem typed_run (b : Browser) (size : Str) (hne : size ≠ []) (parent : List Nat)
    (after : List Markup) (typed : List Typed) :
    ∀ (ed : Editor) (before : List Markup),
      ed.currentFontSize = .str size →
      ed.dom.selection = some (Range.at ⟨parent, before.length⟩) →
      Node.caret parent before.length ed.dom.content = some (parent, before, after) →
      querySelectorAll ed.dom.content = [] →
      (run b ed (typed.map Typed.event)).currentFontSize = .str size ∧
      (run b ed (typed.map Typed.event)).dom.selection
        = some (Range.at ⟨parent, before.length + typed.length⟩) ∧
      Node.caret parent (before.length + typed.length)
          (run b ed (typed.map Typed.event)).dom.content
        = some (parent, before ++ typed.map (Typed.shape size), after) ∧
      Markup.withChildrenAt parent (before ++ typed.map (Typed.shape size) ++ after)
          ed.dom.content.markup
        = some (run b ed (typed.map Typed.event)).dom.content.markup := by
  induction typed with
  | nil =>
    intro ed before hsize hsel hcaret _
    simp only [List.map_nil, run, List.foldl_nil, List.append_nil, List.length_nil,
      Nat.add_zero]
    exact ⟨hsize, hsel, hcaret, withChildrenAt_caret _ _ _ _ _ hcaret⟩
  | cons t ts ih =>
    intro ed before hsize hsel hcaret hclean
    obtain ⟨h1, h2, h3, h4, h5⟩ := typed_step b ed size ⟨parent, before.length⟩ t parent
      before after hsize hne hsel hcaret hclean
    have hlen : (before ++ [t.shape size]).length = before.length + 1 := by simp
    rw [← hlen] at h2 h3
    obtain ⟨k1, k2, k3, k4⟩ := ih (handle b ed t.event) (before ++ [t.shape size]) h1 h2 h3 h4
    have hrun : run b ed ((t :: ts).map Typed.event)
        = run b (handle b ed t.event) (ts.map Typed.event) := rfl
    have hn : (before ++ [t.shape size]).length + ts.length
        = before.length + (t :: ts).length := by
      simp only [List.length_append, List.length_cons, List.length_nil]
      omega
    have hl : before ++ [t.shape size] ++ ts.map (Typed.shape size)
        = before ++ (t :: ts).map (Typed.shape size) := by simp
    rw [hn] at k2 k3
    rw [hl] at k3
    rw [hl, withChildrenAt_again parent _ _ _ _ h5] at k4
    rw [hrun]
    exact ⟨k1, k2, k3, k4⟩

theorem saveSelection_currentFontSize (ed : Editor) :
    (saveSelection ed).currentFontSize = ed.currentFontSize := by
  unfold saveSelection
  split <;> rfl

theorem insertAtCaret_currentFontSize (b : Browser) (ed : Editor) (range : Range)
    (new : Node) : (insertAtCaret b ed range new).currentFontSize = ed.currentFontSize := by
  unfold insertAtCaret
  generalize (if range.start = range.stop then (ed.dom.content, range)
    else b.deleteContents ed.dom.content range) = r
  dsimp only
  split
  · rfl
  · rw [saveSelection_currentFontSize]

theorem beforeinput_currentFontSize (b : Browser) (ed : Editor) (inputType : Str)
    (data : Option Str) :
    (beforeinput b ed inputType data).currentFontSize = ed.currentFontSize := by
  unfold beforeinput
  split
  · rfl
  · split
    · split
      · rfl
      · exact insertAtCaret_currentFontSize ..
    · split
      · split
        · rfl
        · exact insertAtCaret_currentFontSize ..
      · rfl

/-! #### Typing next to legacy size tags -/

theorem Node.induct {P : Node → Prop} (htext : ∀ i data, P (.text i data))
    (helem : ∀ i tag attrs style cs, (∀ c ∈ cs, P c) → P (.elem i tag attrs style cs)) :
    ∀ t, P t :=
  @Node.rec P (fun cs => ∀ c ∈ cs, P c) htext
    (fun i tag attrs style cs ih => helem i tag attrs style cs ih)
    (fun c hc => absurd hc (List.not_mem_nil c))
    (fun c cs hc hcs x hx => by
      rcases List.mem_cons.mp hx with rfl | hx
      · exact hc
      · exact hcs x hx)

theorem replaceL_eq_map (new : Node) (old : Nat) (cs : List Node) :
    Node.replaceChild.replaceL new old cs
      = cs.map fun c => if c.id = old then new else Node.replaceChild new old c := by
  induction cs with
  | nil => rfl
  | cons c cs ih => simp [Node.replaceChild.replaceL, ih]

theorem replaceChild_elem (new : Node) (old : Nat) (i : Nat) (tag : Str)
    (attrs style : List (Str × Str)) (cs : List Node) :
    Node.replaceChild new old (.elem i tag attrs style cs)
      = .elem i tag attrs style
          (cs.map fun c => if c.id = old then new else Node.replaceChild new old c) := by
  simp only [Node.replaceChild, replaceL_eq_map]

theorem mem_nodes_elem (n : Node) (i : Nat) (tag : Str) (attrs style : List (Str × Str))
    (cs : List Node) :
    n ∈ (Node.elem i tag attrs style cs).descendants ↔ ∃ c ∈ cs, n ∈ c.nodes := by
  rw [mem_descendants_elem]
  simp only [Node.nodes, List.mem_cons]

theorem mem_nodes_self (t : Node) : t ∈ t.nodes := List.mem_cons_self _ _

theorem mem_nodes_of_child (n c : Node) (i : Nat) (tag : Str) (attrs style : List (Str × Str))
    (cs : List Node) (hc : c ∈ cs) (hn : n ∈ c.nodes) :
    n ∈ (Node.elem i tag attrs style cs).nodes :=
  List.mem_cons_of_mem _ ((mem_nodes_elem ..).mpr ⟨c, hc, hn⟩)

/-- Replacing the child with an identity no descendant has changes nothing. -/
theorem replaceChild_of_not_mem (new : Node) (old : Nat) :
    ∀ t : Node, (∀ n ∈ t.descendants, n.id ≠ old) → Node.replaceChild new old t = t := by
  intro t
  induction t using Node.induct with
  | htext i data => intro _; rfl
  | helem i tag attrs style cs ih =>
    intro h
    rw [replaceChild_elem]
    congr 1
    conv_rhs => rw [← List.map_id cs]
    apply List.map_congr_left
    intro c hc
    have hcid : c.id ≠ old := h c ((mem_nodes_elem ..).mpr ⟨c, hc, mem_nodes_self c⟩)
    rw [if_neg hcid]
    exact ih c hc fun n hn =>
      h n ((mem_nodes_elem ..).mpr ⟨c, hc, List.mem_cons_of_mem _ hn⟩)

theorem replaceChild_id (new : Node) (old : Nat) (t : Node) :
    (Node.replaceChild new old t).id = t.id := by
  cases t <;> rfl

theorem replaceChild_isFontSize (new : Node) (old : Nat) (t : Node) :
    (Node.replaceChild new old t).isFontSize = t.isFontSize := by
  cases t <;> rfl

/-- Where the nodes of a tree come from after `replaceChild`: from the new node,
or from a node that was there, with its identity and its tag and attributes. -/
theorem replaceChild_nodes (new : Node) (old : Nat) :
    ∀ t : Node, ∀ n' ∈ (Node.replaceChild new old t).descendants,
      n' ∈ new.nodes ∨ ∃ n ∈ t.descendants, n.id = n'.id ∧ n.isFontSize = n'.isFontSize := by
  intro t
  induction t using Node.induct with
  | htext i data =>
    intro n' hn'
    simp [Node.replaceChild, Node.descendants] at hn'
  | helem i tag attrs style cs ih =>
    intro n' hn'
    rw [replaceChild_elem, mem_nodes_elem] at hn'
    obtain ⟨c', hc', hn'⟩ := hn'
    obtain ⟨c, hc, rfl⟩ := List.mem_map.mp hc'
    by_cases hid : c.id = old
    · rw [if_pos hid] at hn'
      exact Or.inl hn'
    · rw [if_neg hid] at hn'
      rcases List.mem_cons.mp hn' with rfl | hn'
      · exact Or.inr ⟨c, (mem_nodes_elem ..).mpr ⟨c, hc, mem_nodes_self c⟩,
          (replaceChild_id new old c).symm, (replaceChild_isFontSize new old c).symm⟩
      · rcases ih c hc n' hn' with h | ⟨n, hn, h1, h2⟩
        · exact Or.inl h
        · exact Or.inr ⟨n, (mem_nodes_elem ..).mpr ⟨c, hc, List.mem_cons_of_mem _ hn⟩, h1, h2⟩

theorem cloneL_spec (cs : List Node)
    (h : ∀ c ∈ cs, ∀ n, n ≤ (c.clone n).2 ∧
      (∀ x ∈ (c.clone n).1.nodes, n ≤ x.id ∧ x.id < (c.clone n).2) ∧
      (∀ x ∈ (c.clone n).1.nodes, ∀ y ∈ (c.clone n).1.nodes,
        x.id = y.id → x.isFontSize = y.isFontSize)) :
    ∀ n, n ≤ (Node.clone.cloneL cs n).2 ∧
      (∀ c ∈ (Node.clone.cloneL cs n).1, ∀ x ∈ c.nodes,
        n ≤ x.id ∧ x.id < (Node.clone.cloneL cs n).2) ∧
      (∀ c ∈ (Node.clone.cloneL cs n).1, ∀ x ∈ c.nodes,
        ∀ d ∈ (Node.clone.cloneL cs n).1, ∀ y ∈ d.nodes,
        x.id = y.id → x.isFontSize = y.isFontSize) := by
  induction cs with
  | nil =>
    intro n
    refine ⟨Nat.le_refl _, ?_, ?_⟩
    · intro c hc
      simp [Node.clone.cloneL] at hc
    · intro c hc
      simp [Node.clone.cloneL] at hc
  | cons c cs ih =>
    intro n
    obtain ⟨h1, h2, h3⟩ := h c (List.mem_cons_self _ _) n
    obtain ⟨k1, k2, k3⟩ := ih (fun d hd => h d (List.mem_cons_of_mem _ hd)) (c.clone n).2
    have hshape : Node.clone.cloneL (c :: cs) n
        = ((c.clone n).1 :: (Node.clone.cloneL cs (c.clone n).2).1,
            (Node.clone.cloneL cs (c.clone n).2).2) := rfl
    rw [hshape]
    refine ⟨Nat.le_trans h1 k1, ?_, ?_⟩
    · intro d hd x hx
      rcases List.mem_cons.mp hd with rfl | hd
      · exact ⟨(h2 x hx).1, Nat.lt_of_lt_of_le (h2 x hx).2 k1⟩
      · exact ⟨Nat.le_trans h1 (k2 d hd x hx).1, (k2 d hd x hx).2⟩
    · intro d hd x hx e he y hy hxy
      rcases List.mem_cons.mp hd with rfl | hd
      · rcases List.mem_cons.mp he with rfl | he
        · exact h3 x hx y hy hxy
        · have := (h2 x hx).2
          have := (k2 e he y hy).1
          omega
      · rcases List.mem_cons.mp he with rfl | he
        · have := (h2 y hy).2
          have := (k2 d hd x hx).1
          omega
        · exact k3 d hd x hx e he y hy hxy

/-- The copy that `innerHTML` builds gets the identities from `n` up to the next
unused one, each once. -/
theorem clone_spec : ∀ (t : Node) (n : Nat), n ≤ (t.clone n).2 ∧
    (∀ x ∈ (t.clone n).1.nodes, n ≤ x.id ∧ x.id < (t.clone n).2) ∧
    (∀ x ∈ (t.clone n).1.nodes, ∀ y ∈ (t.clone n).1.nodes,
      x.id = y.id → x.isFontSize = y.isFontSize) := by
  intro t
  induction t using Node.induct with
  | htext i data =>
    intro n
    have hn : (Node.clone (.text i data) n) = (.text n data, n + 1) := rfl
    rw [hn]
    refine ⟨Nat.le_succ n, ?_, ?_⟩
    · intro x hx
      simp only [Node.nodes, Node.descendants, List.mem_singleton] at hx
      subst hx
      exact ⟨Nat.le_refl _, Nat.lt_succ_self _⟩
    · intro x hx y hy _
      simp only [Node.nodes, Node.descendants, List.mem_singleton] at hx hy
      rw [hx, hy]
  | helem i tag attrs style cs ih =>
    intro n
    obtain ⟨k1, k2, k3⟩ := cloneL_spec cs ih (n + 1)
    have hn : Node.clone (.elem i tag attrs style cs) n
        = (.elem n tag attrs style (Node.clone.cloneL cs (n + 1)).1,
            (Node.clone.cloneL cs (n + 1)).2) := rfl
    rw [hn]
    refine ⟨Nat.le_of_succ_le k1, ?_, ?_⟩
    · intro x hx
      rcases List.mem_cons.mp hx with rfl | hx
      · exact ⟨Nat.le_refl _, k1⟩
      · obtain ⟨c, hc, hx⟩ := (mem_nodes_elem ..).mp hx
        exact ⟨Nat.le_of_succ_le (k2 c hc x hx).1, (k2 c hc x hx).2⟩
    · intro x hx y hy hxy
      rcases List.mem_cons.mp hx with rfl | hx
      · rcases List.mem_cons.mp hy with rfl | hy
        · rfl
        · obtain ⟨c, hc, hy⟩ := (mem_nodes_elem ..).mp hy
          have := (k2 c hc y hy).1
          have hxy' : n = y.id := hxy
          omega
      · obtain ⟨c, hc, hx⟩ := (mem_nodes_elem ..).mp hx
        rcases List.mem_cons.mp hy with rfl | hy
        · have := (k2 c hc x hx).1
          have hxy' : x.id = n := hxy
          omega
        · obtain ⟨d, hd, hy⟩ := (mem_nodes_elem ..).mp hy
          exact k3 c hc x hx d hd y hy hxy

theorem replaceChild_nodes_root (new : Node) (old : Nat) (t : Node) :
    ∀ n' ∈ (Node.replaceChild new old t).nodes,
      n' ∈ new.nodes ∨ ∃ n ∈ t.nodes, n.id = n'.id ∧ n.isFontSize = n'.isFontSize := by
  intro n' hn'
  rcases List.mem_cons.mp hn' with rfl | hn'
  · exact Or.inr ⟨t, mem_nodes_self t, (replaceChild_id new old t).symm,
      (replaceChild_isFontSize new old t).symm⟩
  · rcases replaceChild_nodes new old t n' hn' with h | ⟨n, hn, h⟩
    · exact Or.inl h
    · exact Or.inr ⟨n, List.mem_cons_of_mem _ hn, h⟩

/-- Identities stay below the next unused one, and stay bound to one tag and
attribute list, when every node of the new tree is a node of the old one or a
new node with a new identity. -/
theorem fontById_of_nodes (t t' : Node) (N N' : Nat) (Fr : Node → Prop)
    (hprov : ∀ n' ∈ t'.nodes,
      Fr n' ∨ ∃ n ∈ t.nodes, n.id = n'.id ∧ n.isFontSize = n'.isFontSize)
    (hb : ∀ x ∈ t.nodes, x.id < N)
    (hf : ∀ x ∈ t.nodes, ∀ y ∈ t.nodes, x.id = y.id → x.isFontSize = y.isFontSize)
    (hfresh : ∀ x, Fr x → N ≤ x.id ∧ x.id < N')
    (hfreshF : ∀ x y, Fr x → Fr y → x.id = y.id → x.isFontSize = y.isFontSize)
    (hNN : N ≤ N') :
    (∀ x ∈ t'.nodes, x.id < N') ∧
    (∀ x ∈ t'.nodes, ∀ y ∈ t'.nodes, x.id = y.id → x.isFontSize = y.isFontSize) := by
  constructor
  · intro x hx
    rcases hprov x hx with h | ⟨n, hn, h1, -⟩
    · exact (hfresh x h).2
    · rw [← h1]
      exact Nat.lt_of_lt_of_le (hb n hn) hNN
  · intro x hx y hy hxy
    rcases hprov x hx with h | ⟨n, hn, h1, h2⟩
    · rcases hprov y hy with k | ⟨m, hm, k1, k2⟩
      · exact hfreshF x y h k hxy
      · have := (hfresh x h).1
        have := hb m hm
        omega
    · rcases hprov y hy with k | ⟨m, hm, k1, k2⟩
      · have := (hfresh y k).1
        have := hb n hn
        omega
      · rw [← h2, ← k2]
        exact hf n hn m hm (by rw [h1, k1, hxy])

/-- One step of the normaliser that does not throw: the tree is the old one with
the child `font` replaced by a new node with new identities, and the selection
has followed the replacement. -/
theorem replaceFontTag_some (d d' : Dom) (font : Nat) (h : replaceFontTag d font = some d') :
    ∃ span : Node,
      d'.content = Node.replaceChild span font d.content ∧
      d.nextId ≤ d'.nextId ∧
      (∀ x ∈ span.nodes, d.nextId ≤ x.id ∧ x.id < d'.nextId) ∧
      (∀ x ∈ span.nodes, ∀ y ∈ span.nodes, x.id = y.id → x.isFontSize = y.isFontSize) ∧
      d'.selection = d.selection.map
        (match d.content.pathOf? font with
         | some path => Range.afterReplace path.dropLast (path.getLastD 0)
         | none => id) := by
  unfold replaceFontTag at h
  split at h
  · rename_i i tag attrs style children hfind
    simp only at h
    split at h
    · simp only [Option.some.injEq] at h
      subst h
      obtain ⟨k1, k2, k3⟩ := cloneL_spec children (fun c _ n => clone_spec c n) (d.nextId + 1)
      refine ⟨_, rfl, Nat.le_of_succ_le k1, ?_, ?_, rfl⟩
      · intro x hx
        rcases List.mem_cons.mp hx with rfl | hx
        · exact ⟨Nat.le_refl _, k1⟩
        · obtain ⟨c, hc, hx⟩ := (mem_nodes_elem ..).mp hx
          exact ⟨Nat.le_of_succ_le (k2 c hc x hx).1, (k2 c hc x hx).2⟩
      · intro x hx y hy hxy
        rcases List.mem_cons.mp hx with rfl | hx
        · rcases List.mem_cons.mp hy with rfl | hy
          · rfl
          · obtain ⟨c, hc, hy⟩ := (mem_nodes_elem ..).mp hy
            have := (k2 c hc y hy).1
            have hxy' : d.nextId = y.id := hxy
            omega
        · obtain ⟨c, hc, hx⟩ := (mem_nodes_elem ..).mp hx
          rcases List.mem_cons.mp hy with rfl | hy
          · have := (k2 c hc x hx).1
            have hxy' : x.id = d.nextId := hxy
            omega
          · obtain ⟨e, he, hy⟩ := (mem_nodes_elem ..).mp hy
            exact k3 c hc x hx e he y hy hxy
    · simp at h
  · simp at h

theorem replaceChild_spine (S : Nat → Prop) (span : Node) (f : Nat) (hf : ¬ S f) :
    ∀ (path : List Nat) (t : Node), Node.spineIn S path t →
      Node.spineIn S path (Node.replaceChild span f t) ∧
      ∀ i tag attrs style cs, Node.nodeAt? path t = some (.elem i tag attrs style cs) →
        Node.nodeAt? path (Node.replaceChild span f t)
          = some (.elem i tag attrs style
              (cs.map fun c => if c.id = f then span else Node.replaceChild span f c)) := by
  intro path
  induction path with
  | nil =>
    intro t _
    refine ⟨trivial, ?_⟩
    intro i tag attrs style cs ht
    simp only [Node.nodeAt?, Option.some.injEq] at ht
    subst ht
    simp only [Node.nodeAt?, replaceChild_elem]
  | cons k rest ih =>
    intro t hsp
    cases t with
    | text i data => exact absurd hsp (by simp [Node.spineIn])
    | elem i tag attrs style cs₀ =>
      simp only [Node.spineIn] at hsp
      split at hsp
      · rename_i c hk
        obtain ⟨hS, hnf, hrest⟩ := hsp
        have hne : c.id ≠ f := fun h => hf (h ▸ hS)
        have hget : (cs₀.map fun c => if c.id = f then span
            else Node.replaceChild span f c)[k]? = some (Node.replaceChild span f c) := by
          rw [List.getElem?_map, hk]
          simp only [Option.map_some', if_neg hne]
        obtain ⟨h1, h2⟩ := ih c hrest
        constructor
        · rw [replaceChild_elem]
          simp only [Node.spineIn, hget]
          exact ⟨by rw [replaceChild_id]; exact hS,
            by rw [replaceChild_isFontSize]; exact hnf, h1⟩
        · intro i' tag' attrs' style' cs ht
          simp only [Node.nodeAt?, hk] at ht
          rw [replaceChild_elem]
          simp only [Node.nodeAt?, hget]
          exact h2 i' tag' attrs' style' cs ht
      · exact absurd hsp id

theorem pathL_spec (f : Nat) (cs : List Node)
    (ih : ∀ c ∈ cs, ∀ q, Node.pathOf? f c = some q →
      q ≠ [] ∧ ∃ n, Node.nodeAt? q c = some n ∧ n.id = f) :
    ∀ (k : Nat) (q : List Nat), Node.pathOf?.pathL f k cs = some q →
      ∃ j c p, q = (k + j) :: p ∧ cs[j]? = some c ∧ ∃ n, Node.nodeAt? p c = some n ∧ n.id = f := by
  induction cs with
  | nil =>
    intro k q h
    simp [Node.pathOf?.pathL] at h
  | cons c cs ihl =>
    intro k q h
    simp only [Node.pathOf?.pathL] at h
    split at h
    · rename_i hid
      simp only [Option.some.injEq] at h
      exact ⟨0, c, [], h.symm, List.getElem?_cons_zero, c, rfl, hid⟩
    · split at h
      · rename_i p hp
        simp only [Option.some.injEq] at h
        obtain ⟨-, n, hn, hnid⟩ := ih c (List.mem_cons_self _ _) p hp
        exact ⟨0, c, p, h.symm, List.getElem?_cons_zero, n, hn, hnid⟩
      · obtain ⟨j, c', p, hq, hc', hn⟩ :=
          ihl (fun d hd => ih d (List.mem_cons_of_mem _ hd)) (k + 1) q h
        refine ⟨j + 1, c', p, ?_, ?_, hn⟩
        · rw [hq]
          congr 1
          omega
        · simpa using hc'

/-- The path `pathOf?` gives leads to a node with the identity asked for. -/
theorem pathOf?_spec (f : Nat) : ∀ (t : Node) (q : List Nat), Node.pathOf? f t = some q →
    q ≠ [] ∧ ∃ n, Node.nodeAt? q t = some n ∧ n.id = f := by
  intro t
  induction t using Node.induct with
  | htext i data =>
    intro q h
    simp [Node.pathOf?] at h
  | helem i tag attrs style cs ih =>
    intro q h
    simp only [Node.pathOf?] at h
    obtain ⟨j, c, p, hq, hc, n, hn, hnid⟩ := pathL_spec f cs ih 0 q h
    subst hq
    refine ⟨List.cons_ne_nil _ _, n, ?_, hnid⟩
    simp only [Node.nodeAt?, Nat.zero_add, hc, hn]

theorem spineIn_nodeAt (S : Nat → Prop) : ∀ (q parent : List Nat) (t : Node),
    Node.spineIn S parent t → q ≠ [] → q <+: parent →
    ∃ n, Node.nodeAt? q t = some n ∧ S n.id := by
  intro q
  induction q with
  | nil => intro _ _ _ h; exact absurd rfl h
  | cons k q ih =>
    intro parent t hsp _ hpre
    obtain ⟨rest, rfl⟩ := hpre
    cases t with
    | text i data => exact absurd hsp (by simp [Node.spineIn])
    | elem i tag attrs style cs =>
      simp only [List.cons_append, Node.spineIn] at hsp
      split at hsp
      · rename_i c hk
        by_cases hq : q = []
        · subst hq
          exact ⟨c, by simp only [Node.nodeAt?, hk], hsp.1⟩
        · obtain ⟨n, hn, hS⟩ := ih (q ++ rest) c hsp.2.2 hq (List.prefix_append _ _)
          exact ⟨n, by simp only [Node.nodeAt?, hk, hn], hS⟩
      · exact absurd hsp id

theorem nodeAt?_append (k : Nat) : ∀ (path : List Nat) (t : Node) (i : Nat) (tag : Str)
    (attrs style : List (Str × Str)) (cs : List Node),
    Node.nodeAt? path t = some (.elem i tag attrs style cs) →
    Node.nodeAt? (path ++ [k]) t = cs[k]? := by
  intro path
  induction path with
  | nil =>
    intro t i tag attrs style cs h
    simp only [Node.nodeAt?, Option.some.injEq] at h
    subst h
    simp only [List.nil_append, Node.nodeAt?]
    cases cs[k]? <;> rfl
  | cons j rest ih =>
    intro t i tag attrs style cs h
    cases t with
    | text i' data => simp [Node.nodeAt?] at h
    | elem i' tag' attrs' style' cs' =>
      simp only [Node.nodeAt?] at h
      simp only [List.cons_append, Node.nodeAt?]
      split at h
      · rename_i c hc
        exact ih c i tag attrs style cs h
      · simp at h

theorem dropLast_getLastD (q : List Nat) (h : q ≠ []) :
    q.dropLast ++ [q.getLastD 0] = q := by
  induction q with
  | nil => exact absurd rfl h
  | cons a q ih =>
    cases q with
    | nil => rfl
    | cons b q =>
      have := ih (List.cons_ne_nil _ _)
      simp only [List.dropLast_cons₂, List.cons_append, List.getLastD_cons] at this ⊢
      rw [this]

/-- The caret stays where it is when the replaced node is neither on the way to
its container nor the child right before it. -/
theorem afterReplace_of_spine (S : Nat → Prop) (f : Nat) (hf : ¬ S f) (t : Node)
    (parent : List Nat) (j : Nat) (q : List Nat)
    (hsp : Node.spineIn S parent t) (hq : Node.pathOf? f t = some q)
    (hchild : ∀ k n, j = k + 1 → Node.nodeAt? (parent ++ [k]) t = some n → S n.id) :
    Point.afterReplace q.dropLast (q.getLastD 0) ⟨parent, j⟩ = ⟨parent, j⟩ := by
  obtain ⟨hne, n, hn, hnid⟩ := pathOf?_spec f t q hq
  have hq' := dropLast_getLastD q hne
  unfold Point.afterReplace
  rw [hq']
  have h1 : q.isPrefixOf parent = false := by
    cases hb : q.isPrefixOf parent with
    | false => rfl
    | true =>
      obtain ⟨m, hm, hS⟩ := spineIn_nodeAt S q parent t hsp hne (List.isPrefixOf_iff_prefix.mp hb)
      rw [hn] at hm
      cases hm
      exact absurd (hnid ▸ hS) hf
  rw [if_neg (by rw [h1]; exact Bool.false_ne_true), if_neg]
  rintro ⟨hp, hj⟩
  simp only at hp hj
  have hS := hchild (q.getLastD 0) n hj (by rw [hp, hq']; exact hn)
  exact hf (hnid ▸ hS)

/-- A run of the normaliser over identities outside `S`, with the caret at
offset `j` of the element at `parent`: the way to that element, the children of
it whose identities are all in `S`, among them the child right before the caret,
and the caret itself are left as they are. -/
theorem replaceEach_keeps (S : Nat → Prop) (parent : List Nat) (j : Nat) (i : Nat) (tag : Str)
    (attrs style : List (Str × Str)) (cs₀ : List Node)
    (hnew : ∀ (k : Nat) (c : Node), j = k + 1 → cs₀[k]? = some c → ∀ n ∈ c.nodes, S n.id) :
    ∀ (fs : List Nat) (d : Dom), (∀ f ∈ fs, ¬ S f) →
      Node.spineIn S parent d.content →
      (∃ cs, Node.nodeAt? parent d.content = some (.elem i tag attrs style cs) ∧
        cs.length = cs₀.length ∧
        ∀ (k : Nat) (c : Node), cs₀[k]? = some c → (∀ n ∈ c.nodes, S n.id) → cs[k]? = some c) →
      d.selection = some (Range.at ⟨parent, j⟩) →
      (∀ x ∈ d.content.nodes, x.id < d.nextId) →
      (∀ x ∈ d.content.nodes, ∀ y ∈ d.content.nodes,
        x.id = y.id → x.isFontSize = y.isFontSize) →
      Node.spineIn S parent (replaceEach fs d).content ∧
      (∃ cs, Node.nodeAt? parent (replaceEach fs d).content
          = some (.elem i tag attrs style cs) ∧
        cs.length = cs₀.length ∧
        ∀ (k : Nat) (c : Node), cs₀[k]? = some c → (∀ n ∈ c.nodes, S n.id) → cs[k]? = some c) ∧
      (replaceEach fs d).selection = some (Range.at ⟨parent, j⟩) ∧
      (∀ x ∈ (replaceEach fs d).content.nodes, x.id < (replaceEach fs d).nextId) ∧
      (∀ x ∈ (replaceEach fs d).content.nodes, ∀ y ∈ (replaceEach fs d).content.nodes,
        x.id = y.id → x.isFontSize = y.isFontSize) ∧
      d.nextId ≤ (replaceEach fs d).nextId := by
  intro fs
  induction fs with
  | nil =>
    intro d _ hsp hcs hsel hb hfb
    exact ⟨hsp, hcs, hsel, hb, hfb, Nat.le_refl _⟩
  | cons f rest ih =>
    intro d hfs hsp hcs hsel hb hfb
    have hf : ¬ S f := hfs f (List.mem_cons_self _ _)
    cases hstep : replaceFontTag d f with
    | none =>
      have hrun : replaceEach (f :: rest) d = d := by
        simp only [replaceEach, hstep]
      rw [hrun]
      exact ⟨hsp, hcs, hsel, hb, hfb, Nat.le_refl _⟩
    | some d' =>
      have hrun : replaceEach (f :: rest) d = replaceEach rest d' := by
        simp only [replaceEach, hstep]
      rw [hrun]
      obtain ⟨span, hcontent, hnext, hspan, hspanF, hselection⟩ := replaceFontTag_some d d' f hstep
      obtain ⟨cs, hat, hlen, hkeep⟩ := hcs
      obtain ⟨hsp', hat'⟩ := replaceChild_spine S span f hf parent d.content hsp
      have hsp'' : Node.spineIn S parent d'.content := by rw [hcontent]; exact hsp'
      have hcs' : ∃ cs', Node.nodeAt? parent d'.content = some (.elem i tag attrs style cs') ∧
          cs'.length = cs₀.length ∧
          ∀ (k : Nat) (c : Node), cs₀[k]? = some c → (∀ n ∈ c.nodes, S n.id) → cs'[k]? = some c := by
        refine ⟨_, by rw [hcontent]; exact hat' i tag attrs style cs hat, ?_, ?_⟩
        · rw [List.length_map, hlen]
        · intro k c hk hc
          rw [List.getElem?_map, hkeep k c hk hc]
          have hcid : c.id ≠ f := fun h => hf (h ▸ hc c (mem_nodes_self c))
          simp only [Option.map_some', if_neg hcid]
          rw [replaceChild_of_not_mem span f c fun n hn h =>
            hf (h ▸ hc n (List.mem_cons_of_mem _ hn))]
      have hsel' : d'.selection = some (Range.at ⟨parent, j⟩) := by
        rw [hselection, hsel]
        cases hq : d.content.pathOf? f with
        | none => rfl
        | some q =>
          have hpt := afterReplace_of_spine S f hf d.content parent j q hsp hq (by
            intro k n hj hn
            rw [nodeAt?_append k parent d.content i tag attrs style cs hat] at hn
            have hklt : k < cs₀.length := by
              rw [← hlen]
              by_contra hge
              rw [List.getElem?_eq_none (Nat.le_of_not_lt hge)] at hn
              simp at hn
            have hk0 : cs₀[k]? = some cs₀[k] := List.getElem?_eq_getElem hklt
            have hprot := hnew k cs₀[k] hj hk0
            rw [hkeep k cs₀[k] hk0 hprot] at hn
            cases hn
            exact hprot _ (mem_nodes_self _))
          simp only [Option.map_some', Range.afterReplace, Range.at, hpt]
      obtain ⟨hb', hfb'⟩ := fontById_of_nodes d.content d'.content d.nextId d'.nextId
        (fun x => x ∈ span.nodes)
        (by rw [hcontent]; exact replaceChild_nodes_root span f d.content)
        hb hfb hspan (fun x y hx hy => hspanF x hx y hy) hnext
      obtain ⟨r1, r2, r3, r4, r5, r6⟩ := ih d' (fun g hg => hfs g (List.mem_cons_of_mem _ hg))
        hsp'' hcs' hsel' hb' hfb'
      exact ⟨r1, r2, r3, r4, r5, Nat.le_trans hnext r6⟩

theorem nodeAt?_mem : ∀ (path : List Nat) (t n : Node),
    Node.nodeAt? path t = some n → n ∈ t.nodes := by
  intro path
  induction path with
  | nil =>
    intro t n h
    simp only [Node.nodeAt?, Option.some.injEq] at h
    subst h
    exact mem_nodes_self t
  | cons k rest ih =>
    intro t n h
    cases t with
    | text i data => simp [Node.nodeAt?] at h
    | elem i tag attrs style cs =>
      simp only [Node.nodeAt?] at h
      split at h
      · rename_i c hc
        exact mem_nodes_of_child n c i tag attrs style cs (List.getElem?_mem hc) (ih c n h)
      · simp at h

theorem caret_of_nodeAt : ∀ (path : List Nat) (t : Node) (i : Nat) (tag : Str)
    (attrs style : List (Str × Str)) (cs : List Node) (j : Nat),
    Node.nodeAt? path t = some (.elem i tag attrs style cs) → j ≤ cs.length →
    Node.caret path j t
      = some (path, (cs.take j).map Node.markup, (cs.drop j).map Node.markup) := by
  intro path
  induction path with
  | nil =>
    intro t i tag attrs style cs j h hj
    simp only [Node.nodeAt?, Option.some.injEq] at h
    subst h
    simp only [Node.caret, hj, if_true]
  | cons k rest ih =>
    intro t i tag attrs style cs j h hj
    cases t with
    | text i' data => simp [Node.nodeAt?] at h
    | elem i' tag' attrs' style' cs' =>
      simp only [Node.nodeAt?] at h
      split at h
      · rename_i c hc
        cases c with
        | text ci data => cases rest <;> simp [Node.nodeAt?] at h
        | elem ci ctag cattrs cstyle ccs =>
          have hrec := ih _ i tag attrs style cs j h hj
          simp only [Node.caret, hc, hrec]
      · simp at h

theorem insertNode_nodeAt (new : Node) (fresh : Nat) (path : List Nat) (offset : Nat)
    (root root' : Node) (parent : List Nat) (before after : List Markup) (pt : Point)
    (h : Node.caret path offset root = some (parent, before, after))
    (hins : Node.insertNode new fresh path offset root = some (root', pt)) :
    ∃ i tag attrs style B A,
      Node.nodeAt? parent root' = some (.elem i tag attrs style (B ++ new :: A)) ∧
      B.map Node.markup = before ∧ A.map Node.markup = after := by
  induction path generalizing root root' parent pt with
  | nil =>
    cases root with
    | text i data => simp [Node.caret] at h
    | elem i tag attrs style cs =>
      simp only [Node.caret] at h
      split at h
      · rename_i hle
        simp only [Option.some.injEq, Prod.mk.injEq] at h
        obtain ⟨rfl, rfl, rfl⟩ := h
        simp only [Node.insertNode, hle, if_true, Option.some.injEq, Prod.mk.injEq] at hins
        obtain ⟨rfl, -⟩ := hins
        exact ⟨i, tag, attrs, style, cs.take offset, cs.drop offset, rfl, rfl, rfl⟩
      · simp at h
  | cons k rest ih =>
    cases root with
    | text i data => simp [Node.caret] at h
    | elem i tag attrs style cs =>
      simp only [Node.caret] at h
      split at h
      · simp at h
      · rename_i t data hk
        split at h
        · rename_i hcond
          simp only [Option.some.injEq, Prod.mk.injEq] at h
          obtain ⟨rfl, rfl, rfl⟩ := h
          simp only [Node.insertNode, hk, hcond, if_true, Option.some.injEq,
            Prod.mk.injEq] at hins
          obtain ⟨rfl, -⟩ := hins
          refine ⟨i, tag, attrs, style, cs.take k ++ [Node.text t (data.take offset)],
            Node.text fresh (data.drop offset) :: cs.drop (k + 1), ?_, ?_, ?_⟩
          · simp only [Node.nodeAt?, List.append_assoc, List.singleton_append]
          · simp only [List.map_append, List.map_cons, List.map_nil, markup_text]
          · simp only [List.map_cons, markup_text]
        · simp at h
      · rename_i c hnot hk
        split at h
        · rename_i r hr
          simp only [Option.some.injEq, Prod.mk.injEq] at h
          obtain ⟨rfl, rfl, rfl⟩ := h
          simp only [Node.insertNode, hk] at hins
          split at hins
          · rename_i c' aft hc'
            simp only [Option.some.injEq, Prod.mk.injEq] at hins
            obtain ⟨rfl, -⟩ := hins
            obtain ⟨ci, ctag, cattrs, cstyle, B, A, hat, hB, hA⟩ := ih c c' r.1 aft hr hc'
            have hklt : k < cs.length := by
              by_contra hge
              rw [List.getElem?_eq_none (Nat.le_of_not_lt hge)] at hk
              simp at hk
            have hget : (cs.set k c')[k]? = some c' := by
              simp [List.getElem?_set, hklt]
            exact ⟨ci, ctag, cattrs, cstyle, B, A, by simp only [Node.nodeAt?, hget, hat],
              hB, hA⟩
          · simp at hins
        · simp at h

theorem insertNode_insideFont (new : Node) (fresh : Nat) (path : List Nat) (offset : Nat)
    (root root' : Node) (parent : List Nat) (before after : List Markup) (pt : Point)
    (h : Node.caret path offset root = some (parent, before, after))
    (hins : Node.insertNode new fresh path offset root = some (root', pt))
    (hout : Node.insideFont path root = false) :
    Node.insideFont parent root' = false := by
  induction path generalizing root root' parent pt with
  | nil =>
    cases root with
    | text i data => simp [Node.caret] at h
    | elem i tag attrs style cs =>
      simp only [Node.caret] at h
      split at h
      · simp only [Option.some.injEq, Prod.mk.injEq] at h
        obtain ⟨rfl, -, -⟩ := h
        rfl
      · simp at h
  | cons k rest ih =>
    cases root with
    | text i data => simp [Node.caret] at h
    | elem i tag attrs style cs =>
      simp only [Node.caret] at h
      split at h
      · simp at h
      · split at h
        · simp only [Option.some.injEq, Prod.mk.injEq] at h
          obtain ⟨rfl, -, -⟩ := h
          rfl
        · simp at h
      · rename_i c hnot hk
        split at h
        · rename_i r hr
          simp only [Option.some.injEq, Prod.mk.injEq] at h
          obtain ⟨rfl, rfl, rfl⟩ := h
          simp only [Node.insertNode, hk] at hins
          split at hins
          · rename_i c' aft hc'
            simp only [Option.some.injEq, Prod.mk.injEq] at hins
            obtain ⟨rfl, -⟩ := hins
            simp only [Node.insideFont, hk, Bool.or_eq_false_iff] at hout
            have hklt : k < cs.length := by
              by_contra hge
              rw [List.getElem?_eq_none (Nat.le_of_not_lt hge)] at hk
              simp at hk
            have hget : (cs.set k c')[k]? = some c' := by
              simp [List.getElem?_set, hklt]
            simp only [Node.insideFont, hget, Bool.or_eq_false_iff]
            exact ⟨by rw [insertNode_isFontSize new fresh rest offset c c' aft hc']; exact hout.1,
              ih c c' r.1 aft hr hc' hout.2⟩
          · simp at hins
        · simp at h

theorem insertNode_id (new : Node) (fresh : Nat) (path : List Nat) (offset : Nat)
    (root root' : Node) (after : Point)
    (h : Node.insertNode new fresh path offset root = some (root', after)) :
    root'.id = root.id := by
  obtain ⟨i, tag, attrs, style, cs, cs', rfl, rfl⟩ :=
    insertNode_isElem new fresh path offset root root' after h
  rfl

/-- Where the nodes of a tree come from after `insertNode`: from the new node,
from the second half of a split text node, or from a node that was there, with
its identity and its tag and attributes. -/
theorem insertNode_nodes (new : Node) (fresh : Nat) (path : List Nat) (offset : Nat)
    (root root' : Node) (after : Point)
    (h : Node.insertNode new fresh path offset root = some (root', after)) :
    ∀ n' ∈ root'.descendants,
      n' ∈ new.nodes ∨ (n'.id = fresh ∧ n'.isFontSize = false) ∨
      ∃ n ∈ root.descendants, n.id = n'.id ∧ n.isFontSize = n'.isFontSize := by
  induction path generalizing root root' after with
  | nil =>
    cases root with
    | text i data => simp [Node.insertNode] at h
    | elem i tag attrs style cs =>
      simp only [Node.insertNode] at h
      split at h
      · simp only [Option.some.injEq, Prod.mk.injEq] at h
        obtain ⟨rfl, -⟩ := h
        intro n hn
        rw [mem_nodes_elem] at hn
        obtain ⟨c, hc, hn⟩ := hn
        rw [List.mem_append, List.mem_cons] at hc
        rcases hc with hc | rfl | hc
        · exact Or.inr (Or.inr ⟨n, (mem_nodes_elem ..).mpr ⟨c, List.mem_of_mem_take hc, hn⟩,
            rfl, rfl⟩)
        · exact Or.inl hn
        · exact Or.inr (Or.inr ⟨n, (mem_nodes_elem ..).mpr ⟨c, List.mem_of_mem_drop hc, hn⟩,
            rfl, rfl⟩)
      · simp at h
  | cons k rest ih =>
    cases root with
    | text i data => simp [Node.insertNode] at h
    | elem i tag attrs style cs =>
      simp only [Node.insertNode] at h
      split at h
      · simp at h
      · rename_i t data hk
        split at h
        · simp only [Option.some.injEq, Prod.mk.injEq] at h
          obtain ⟨rfl, -⟩ := h
          intro n hn
          rw [mem_nodes_elem] at hn
          obtain ⟨c, hc, hn⟩ := hn
          simp only [List.mem_append, List.mem_cons] at hc
          rcases hc with hc | rfl | rfl | rfl | hc
          · exact Or.inr (Or.inr ⟨n, (mem_nodes_elem ..).mpr ⟨c, List.mem_of_mem_take hc, hn⟩,
              rfl, rfl⟩)
          · simp only [Node.nodes, Node.descendants, List.mem_singleton] at hn
            subst hn
            exact Or.inr (Or.inr ⟨.text t data,
              (mem_nodes_elem ..).mpr ⟨_, List.getElem?_mem hk, mem_nodes_self _⟩, rfl, rfl⟩)
          · exact Or.inl hn
          · simp only [Node.nodes, Node.descendants, List.mem_singleton] at hn
            subst hn
            exact Or.inr (Or.inl ⟨rfl, rfl⟩)
          · exact Or.inr (Or.inr ⟨n, (mem_nodes_elem ..).mpr ⟨c, List.mem_of_mem_drop hc, hn⟩,
              rfl, rfl⟩)
        · simp at h
      · rename_i c hnot hk
        split at h
        · rename_i c' aft hins
          simp only [Option.some.injEq, Prod.mk.injEq] at h
          obtain ⟨rfl, -⟩ := h
          have hcmem : c ∈ cs := List.getElem?_mem hk
          intro n hn
          rw [mem_nodes_elem] at hn
          obtain ⟨x, hx, hn⟩ := hn
          rcases List.mem_or_eq_of_mem_set hx with hx | rfl
          · exact Or.inr (Or.inr ⟨n, (mem_nodes_elem ..).mpr ⟨x, hx, hn⟩, rfl, rfl⟩)
          · rcases List.mem_cons.mp hn with rfl | hn
            · exact Or.inr (Or.inr ⟨c, (mem_nodes_elem ..).mpr ⟨c, hcmem, mem_nodes_self c⟩,
                (insertNode_id new fresh rest offset c _ aft hins).symm,
                (insertNode_isFontSize new fresh rest offset c _ aft hins).symm⟩)
            · rcases ih c _ aft hins n hn with h1 | h1 | ⟨m, hm, h1, h2⟩
              · exact Or.inl h1
              · exact Or.inr (Or.inl h1)
              · exact Or.inr (Or.inr ⟨m,
                  (mem_nodes_elem ..).mpr ⟨c, hcmem, List.mem_cons_of_mem _ hm⟩, h1, h2⟩)
        · simp at h

theorem hasFontL_eq_any (ms : List Markup) :
    Markup.hasFont.hasFontL ms = ms.any Markup.hasFont := by
  induction ms with
  | nil => rfl
  | cons m ms ih => simp [Markup.hasFont.hasFontL, ih]

/-- Markup without a legacy size tag comes from nodes none of which matches
`font[size]`. -/
theorem nodes_of_hasFont : ∀ t : Node, t.markup.hasFont = false →
    ∀ n ∈ t.nodes, n.isFontSize = false := by
  intro t
  induction t using Node.induct with
  | htext i data =>
    intro _ n hn
    simp only [Node.nodes, Node.descendants, List.mem_singleton] at hn
    subst hn
    rfl
  | helem i tag attrs style cs ih =>
    intro h n hn
    rw [markup_elem] at h
    simp only [Markup.hasFont, hasFontL_eq_any, Bool.or_eq_false_iff, List.any_eq_false,
      List.mem_map, forall_exists_index, and_imp, forall_apply_eq_imp_iff₂] at h
    rcases List.mem_cons.mp hn with rfl | hn
    · exact h.1
    · obtain ⟨c, hc, hn⟩ := (mem_nodes_elem ..).mp hn
      exact ih c hc (by simpa using h.2 c hc) n hn

theorem spineIn_of_outside (S : Nat → Prop) : ∀ (path : List Nat) (t : Node),
    (Node.nodeAt? path t).isSome = true → Node.insideFont path t = false →
    (∀ n ∈ t.descendants, n.isFontSize = false → S n.id) → Node.spineIn S path t := by
  intro path
  induction path with
  | nil => intro _ _ _ _; trivial
  | cons k rest ih =>
    intro t hat hout hS
    cases t with
    | text i data => simp [Node.nodeAt?] at hat
    | elem i tag attrs style cs =>
      simp only [Node.nodeAt?] at hat
      split at hat
      · rename_i c hc
        simp only [Node.insideFont, hc, Bool.or_eq_false_iff] at hout
        have hcmem : c ∈ cs := List.getElem?_mem hc
        simp only [Node.spineIn, hc]
        exact ⟨hS c ((mem_nodes_elem ..).mpr ⟨c, hcmem, mem_nodes_self c⟩) hout.1, hout.1,
          ih c hat hout.2 fun n hn =>
            hS n ((mem_nodes_elem ..).mpr ⟨c, hcmem, List.mem_cons_of_mem _ hn⟩)⟩
      · simp at hat

theorem insideFont_of_spineIn (S : Nat → Prop) : ∀ (path : List Nat) (t : Node),
    Node.spineIn S path t → Node.insideFont path t = false := by
  intro path
  induction path with
  | nil => intro _ _; rfl
  | cons k rest ih =>
    intro t h
    cases t with
    | text i data => rfl
    | elem i tag attrs style cs =>
      simp only [Node.spineIn] at h
      split at h
      · rename_i c hc
        simp only [Node.insideFont, hc, Bool.or_eq_false_iff]
        exact ⟨h.2.1, ih c h.2.2⟩
      · exact absurd h id

theorem nodeAt?_child_mem : ∀ (path : List Nat) (t : Node) (i : Nat) (tag : Str)
    (attrs style : List (Str × Str)) (cs : List Node) (c n : Node),
    Node.nodeAt? path t = some (.elem i tag attrs style cs) → c ∈ cs → n ∈ c.nodes →
    n ∈ t.descendants := by
  intro path
  induction path with
  | nil =>
    intro t i tag attrs style cs c n h hc hn
    simp only [Node.nodeAt?, Option.some.injEq] at h
    subst h
    exact (mem_nodes_elem ..).mpr ⟨c, hc, hn⟩
  | cons k rest ih =>
    intro t i tag attrs style cs c n h hc hn
    cases t with
    | text i' data => simp [Node.nodeAt?] at h
    | elem i' tag' attrs' style' cs' =>
      simp only [Node.nodeAt?] at h
      split at h
      · rename_i c₀ hc₀
        exact (mem_nodes_elem ..).mpr ⟨c₀, List.getElem?_mem hc₀,
          List.mem_cons_of_mem _ (ih c₀ i tag attrs style cs c n h hc hn)⟩
      · simp at h

theorem saveSelection_dom (ed : Editor) :
    (saveSelection ed).dom.content = ed.dom.content ∧
    (saveSelection ed).dom.selection = ed.dom.selection ∧
    (saveSelection ed).dom.nextId = ed.dom.nextId := by
  unfold saveSelection
  split
  · rename_i r hr
    exact ⟨rfl, rfl, rfl⟩
  · exact ⟨rfl, rfl, rfl⟩

theorem handle_typed (b : Browser) (ed : Editor) (size : Str) (p : Point) (t : Typed)
    (hsize : ed.currentFontSize = .str size) (hne : size ≠ [])
    (hsel : ed.dom.selection = some (Range.at p)) :
    handle b ed t.event = insertAtCaret b ed (Range.at p) (t.node ed.dom.nextId size) := by
  obtain ⟨⟨content, detached, nextId, sel, saved⟩, cfs, timers⟩ := ed
  simp only at hsize hsel
  subst hsize
  subst hsel
  have hf : (Value.str size).falsy = false := by
    cases size with
    | nil => exact absurd rfl hne
    | cons c cs => rfl
  cases t with
  | text composed data =>
    have htext : (if absent (some data) = true then [] else data) = data := by
      cases data <;> rfl
    cases composed <;>
      simp only [Typed.event, Typed.node, handle, beforeinput, hf, htext, Option.getD_some,
        Bool.false_eq_true, if_false, decide_True, Bool.true_or, Bool.or_true, if_true]
  | paragraph =>
    have h1 : ("insertParagraph".toList = "insertText".toList) = False := by decide
    have h2 : ("insertParagraph".toList = "insertCompositionText".toList) = False := by
      decide
    simp only [Typed.event, Typed.node, handle, beforeinput, hf, Bool.false_eq_true, if_false,
      h1, h2, decide_False, Bool.or_self, decide_True, if_true]

theorem node_markup (n : Nat) (size : Str) (t : Typed) (hne : size ≠ []) :
    (t.node n size).markup = t.shape size := by
  cases t with
  | text composed data => exact (shape_of_span n (n + 1) size data hne).1
  | paragraph => rfl

theorem node_nodes (n : Nat) (size : Str) (t : Typed) :
    ∀ x ∈ (t.node n size).nodes, (n ≤ x.id ∧ x.id < n + 2) ∧ x.isFontSize = false := by
  intro x hx
  cases t with
  | text composed data =>
    cases data with
    | nil =>
      simp only [Typed.node, Node.nodes, Node.descendants, Node.descendants.descendantsL,
        List.isEmpty_nil, if_true, List.mem_singleton] at hx
      subst hx
      exact ⟨⟨Nat.le_refl _, by simp [Node.id]⟩, rfl⟩
    | cons c cs =>
      simp only [Typed.node, Node.nodes, Node.descendants, Node.descendants.descendantsL,
        List.isEmpty_cons, Bool.false_eq_true, if_false, List.append_nil, List.mem_cons,
        List.mem_singleton, List.not_mem_nil, or_false] at hx
      rcases hx with rfl | rfl
      · exact ⟨⟨Nat.le_refl _, by simp [Node.id]⟩, rfl⟩
      · exact ⟨⟨by simp [Node.id], by simp [Node.id]⟩, rfl⟩
  | paragraph =>
    simp only [Typed.node, Node.nodes, Node.descendants, Node.descendants.descendantsL,
      List.mem_singleton] at hx
    subst hx
    exact ⟨⟨Nat.le_refl _, by simp [Node.id]⟩, rfl⟩

theorem shape_hasFont (size : Str) (t : Typed) : (t.shape size).hasFont = false := by
  cases t with
  | text composed data => cases data <;> rfl
  | paragraph => rfl

theorem insertAtCaret_collapsed (b : Browser) (ed : Editor) (p : Point) (new t₁ : Node)
    (after : Point)
    (hins : Node.insertNode new (ed.dom.nextId + 2) p.path p.offset ed.dom.content
      = some (t₁, after)) :
    insertAtCaret b ed (Range.at p) new
      = saveSelection { ed with
          dom := replaceFontTags { ed.dom with
            content := t₁, nextId := ed.dom.nextId + 3,
            selection := some (Range.at after) } } := by
  simp only [insertAtCaret, Range.at, if_true, hins]

/-- One typing event under the forced size with the caret outside every legacy
size tag: the new node lands left of the caret, after what was there, and the
normaliser run by the `input` event leaves it, the caret and every neighbour
without a legacy size tag as they are. -/
theorem typed_step_outside (b : Browser) (ed : Editor) (size : Str) (p : Point) (t : Typed)
    (parent : List Nat) (before after : List Markup)
    (hsize : ed.currentFontSize = .str size) (hne : size ≠ [])
    (hsel : ed.dom.selection = some (Range.at p))
    (hcaret : Node.caret p.path p.offset ed.dom.content = some (parent, before, after))
    (hout : Node.insideFont p.path ed.dom.content = false)
    (hb : ∀ x ∈ ed.dom.content.nodes, x.id < ed.dom.nextId)
    (hfb : ∀ x ∈ ed.dom.content.nodes, ∀ y ∈ ed.dom.content.nodes,
      x.id = y.id → x.isFontSize = y.isFontSize) :
    (handle b ed t.event).currentFontSize = .str size ∧
    (handle b ed t.event).dom.selection = some (Range.at ⟨parent, before.length + 1⟩) ∧
    (∃ before' after',
      Node.caret parent (before.length + 1) (handle b ed t.event).dom.content
        = some (parent, before' ++ [t.shape size], after') ∧
      (before'.length = before.length ∧
        ∀ (k : Nat) (m : Markup), before[k]? = some m → m.hasFont = false →
          before'[k]? = some m) ∧
      (after'.length = after.length ∧
        ∀ (k : Nat) (m : Markup), after[k]? = some m → m.hasFont = false →
          after'[k]? = some m)) ∧
    Node.insideFont parent (handle b ed t.event).dom.content = false ∧
    (∀ x ∈ (handle b ed t.event).dom.content.nodes, x.id < (handle b ed t.event).dom.nextId) ∧
    (∀ x ∈ (handle b ed t.event).dom.content.nodes,
      ∀ y ∈ (handle b ed t.event).dom.content.nodes,
      x.id = y.id → x.isFontSize = y.isFontSize) := by
  obtain ⟨t₁, hins, -⟩ := insertNode_caret (t.node ed.dom.nextId size) (ed.dom.nextId + 2)
    p.path p.offset ed.dom.content parent before after hcaret
  obtain ⟨i, tag, attrs, style, B, A, hat, hB, hA⟩ := insertNode_nodeAt _ _ _ _ _ _ _ _ _ _
    hcaret hins
  have hout₁ := insertNode_insideFont _ _ _ _ _ _ _ _ _ _ hcaret hins hout
  have hlenB : B.length = before.length := by rw [← hB, List.length_map]
  have hlenA : A.length = after.length := by rw [← hA, List.length_map]
  -- the tree after the insertion
  have hprov : ∀ n' ∈ t₁.nodes,
      ((ed.dom.nextId ≤ n'.id ∧ n'.id < ed.dom.nextId + 3) ∧ n'.isFontSize = false) ∨
      ∃ n ∈ ed.dom.content.nodes, n.id = n'.id ∧ n.isFontSize = n'.isFontSize := by
    intro n' hn'
    rcases List.mem_cons.mp hn' with rfl | hn'
    · exact Or.inr ⟨ed.dom.content, mem_nodes_self _,
        (insertNode_id _ _ _ _ _ _ _ hins).symm, (insertNode_isFontSize _ _ _ _ _ _ _ hins).symm⟩
    · rcases insertNode_nodes _ _ _ _ _ _ _ hins n' hn' with h | h | ⟨n, hn, h⟩
      · have := node_nodes ed.dom.nextId size t n' h
        exact Or.inl ⟨⟨this.1.1, by omega⟩, this.2⟩
      · exact Or.inl ⟨⟨by omega, by omega⟩, h.2⟩
      · exact Or.inr ⟨n, List.mem_cons_of_mem _ hn, h⟩
  obtain ⟨hb₁, hfb₁⟩ := fontById_of_nodes ed.dom.content t₁ ed.dom.nextId (ed.dom.nextId + 3)
    (fun x => (ed.dom.nextId ≤ x.id ∧ x.id < ed.dom.nextId + 3) ∧ x.isFontSize = false)
    hprov hb hfb (fun x hx => hx.1) (fun x y hx hy _ => by rw [hx.2, hy.2])
    (Nat.le_add_right _ _)
  -- the identities the normaliser does not touch
  have hfs : ∀ f ∈ querySelectorAll t₁,
      ¬ ∃ n ∈ t₁.nodes, n.id = f ∧ n.isFontSize = false := by
    intro f hf
    simp only [querySelectorAll, List.mem_map, List.mem_filter] at hf
    obtain ⟨n, ⟨hn, hfont⟩, rfl⟩ := hf
    rintro ⟨m, hm, hid, hmf⟩
    have := hfb₁ m hm n (List.mem_cons_of_mem _ hn) hid
    rw [hmf, hfont] at this
    exact absurd this (by simp)
  have hsp := spineIn_of_outside (fun f => ∃ n ∈ t₁.nodes, n.id = f ∧ n.isFontSize = false)
    parent t₁ (by rw [hat]; rfl) hout₁
    (fun n hn h => ⟨n, List.mem_cons_of_mem _ hn, rfl, h⟩)
  have hprot : ∀ c ∈ B ++ t.node ed.dom.nextId size :: A, c.markup.hasFont = false →
      ∀ n ∈ c.nodes, ∃ n' ∈ t₁.nodes, n'.id = n.id ∧ n'.isFontSize = false := by
    intro c hc hclean n hn
    exact ⟨n, List.mem_cons_of_mem _ (nodeAt?_child_mem parent t₁ i tag attrs style _ c n hat hc hn),
      rfl, nodes_of_hasFont c hclean n hn⟩
  have hnewAt : (B ++ t.node ed.dom.nextId size :: A)[before.length]?
      = some (t.node ed.dom.nextId size) := by
    rw [← hlenB, List.getElem?_append_right (Nat.le_refl _), Nat.sub_self]
    exact List.getElem?_cons_zero
  have hnew : ∀ (k : Nat) (c : Node), before.length + 1 = k + 1 →
      (B ++ t.node ed.dom.nextId size :: A)[k]? = some c →
      ∀ n ∈ c.nodes, ∃ n' ∈ t₁.nodes, n'.id = n.id ∧ n'.isFontSize = false := by
    intro k c hk hc
    have hk' : k = before.length := by omega
    subst hk'
    rw [hnewAt] at hc
    cases hc
    exact hprot _ (by simp) (by rw [node_markup _ _ _ hne]; exact shape_hasFont size t)
  obtain ⟨r1, ⟨cs', hat', hlen', hkeep⟩, r3, r4, r5, -⟩ :=
    replaceEach_keeps (fun f => ∃ n ∈ t₁.nodes, n.id = f ∧ n.isFontSize = false)
      parent (before.length + 1) i tag attrs style (B ++ t.node ed.dom.nextId size :: A) hnew
      (querySelectorAll t₁)
      { ed.dom with content := t₁, nextId := ed.dom.nextId + 3,
                    selection := some (Range.at ⟨parent, before.length + 1⟩) }
      hfs hsp ⟨_, hat, rfl, fun k c hk _ => hk⟩ rfl hb₁ hfb₁
  have hrun : handle b ed t.event
      = saveSelection { ed with
          dom := replaceFontTags { ed.dom with
            content := t₁, nextId := ed.dom.nextId + 3,
            selection := some (Range.at ⟨parent, before.length + 1⟩) } } := by
    rw [handle_typed b ed size p t hsize hne hsel]
    exact insertAtCaret_collapsed b ed p _ t₁ _ hins
  obtain ⟨s1, s2, s3⟩ := saveSelection_dom { ed with
          dom := replaceFontTags { ed.dom with
            content := t₁, nextId := ed.dom.nextId + 3,
            selection := some (Range.at ⟨parent, before.length + 1⟩) } }
  have hfull : cs'.length = before.length + 1 + after.length := by
    rw [hlen', List.length_append, List.length_cons, hlenB, hlenA]
    omega
  have hcs'new : cs'[before.length]? = some (t.node ed.dom.nextId size) :=
    hkeep _ _ hnewAt (hnew _ _ rfl hnewAt)
  have hcaret' := caret_of_nodeAt parent _ i tag attrs style cs' (before.length + 1) hat'
    (by omega)
  rw [hrun, s1, s2, s3, saveSelection_currentFontSize]
  refine ⟨hsize, r3, ⟨(cs'.take before.length).map Node.markup,
    (cs'.drop (before.length + 1)).map Node.markup, ?_, ⟨?_, ?_⟩, ⟨?_, ?_⟩⟩,
    insideFont_of_spineIn _ parent _ r1, r4, r5⟩
  · have hrf : (replaceFontTags { ed.dom with
            content := t₁, nextId := ed.dom.nextId + 3,
            selection := some (Range.at ⟨parent, before.length + 1⟩) }).content
        = (replaceEach (querySelectorAll t₁) { ed.dom with
            content := t₁, nextId := ed.dom.nextId + 3,
            selection := some (Range.at ⟨parent, before.length + 1⟩) }).content := rfl
    rw [hrf, hcaret', List.take_succ, hcs'new, List.map_append, ← node_markup _ _ t hne]
    rfl
  · rw [List.length_map, List.length_take]
    omega
  · intro k m hk hm
    rw [← hB, List.getElem?_map] at hk
    cases hBk : B[k]? with
    | none => rw [hBk] at hk; simp at hk
    | some c =>
      rw [hBk] at hk
      simp only [Option.map_some', Option.some.injEq] at hk
      subst hk
      have hklt : k < B.length := by
        by_contra hge
        rw [List.getElem?_eq_none (Nat.le_of_not_lt hge)] at hBk
        simp at hBk
      have hc0 : (B ++ t.node ed.dom.nextId size :: A)[k]? = some c := by
        rw [List.getElem?_append_left hklt, hBk]
      have hcmem : c ∈ B ++ t.node ed.dom.nextId size :: A := List.getElem?_mem hc0
      have := hkeep k c hc0 (hprot c hcmem hm)
      rw [List.getElem?_map, List.getElem?_take_of_lt (by omega), this]
      rfl
  · rw [List.length_map, List.length_drop]
    omega
  · intro k m hk hm
    rw [← hA, List.getElem?_map] at hk
    cases hAk : A[k]? with
    | none => rw [hAk] at hk; simp at hk
    | some c =>
      rw [hAk] at hk
      simp only [Option.map_some', Option.some.injEq] at hk
      subst hk
      have hc0 : (B ++ t.node ed.dom.nextId size :: A)[before.length + 1 + k]? = some c := by
        rw [List.getElem?_append_right (by omega)]
        have : before.length + 1 + k - B.length = k + 1 := by omega
        rw [this, List.getElem?_cons_succ, hAk]
      have hcmem : c ∈ B ++ t.node ed.dom.nextId size :: A := List.getElem?_mem hc0
      have := hkeep _ c hc0 (hprot c hcmem hm)
      rw [List.getElem?_map, List.getElem?_drop, this]
      rfl

/-- C6 as stated fails when the caret is inside a legacy size tag.  In
`<font size="4">xy</font>` with the caret between `x` and `y` and the sticky
size 20px, typing `a` puts its `span` into the `font`; the `input` event the
listener dispatches runs `replaceFontTags`, which replaces the `font` by a new
`span` built from its markup, and the caret, whose container is removed with the
`font`, is moved to offset 0 of `.content`.  Typing `b` then inserts its `span`
before the one that holds `a`: the nodes are not in event order and the caret is
not after the node inserted first. -/
theorem sticky_size_in_legacy_tag :
    legacyEditor.currentFontSize = .str "20px".toList ∧
    legacyEditor.dom.selection = some (Range.at ⟨[0, 0], 1⟩) ∧
    Node.insideFont [0, 0] legacyEditor.dom.content = true ∧
    (run idleBrowser legacyEditor
      [.contentBeforeinput "insertText".toList (some "a".toList)]).dom.selection
      = some (Range.at ⟨[], 0⟩) ∧
    (run idleBrowser legacyEditor
      [.contentBeforeinput "insertText".toList (some "a".toList),
       .contentBeforeinput "insertText".toList (some "b".toList)]).dom.content.markup
      = .elem "div".toList [] []
          [.elem "span".toList [] [("font-size".toList, "20px".toList)] [.text "b".toList],
           .elem "span".toList [] [("font-size".toList, "20px".toList)]
             [.text "x".toList,
              .elem "span".toList [] [("font-size".toList, "20px".toList)]
                [.text "a".toList],
              .text "y".toList]] := by
  refine ⟨rfl, rfl, rfl, by decide, rfl⟩

/-- Typing in a document without a legacy size tag: the document afterwards is
the one before with exactly the new nodes added at the caret. -/
theorem typed_clean (b : Browser) (ed : Editor) (size : Str) (p : Point)
    (parent : List Nat) (before after : List Markup) (t : Typed) (ts : List Typed)
    (hsize : ed.currentFontSize = .str size) (hne : size ≠ [])
    (hsel : ed.dom.selection = some (Range.at p))
    (hcaret : Node.caret p.path p.offset ed.dom.content = some (parent, before, after))
    (hclean : querySelectorAll ed.dom.content = []) :
    Node.caret parent (before.length + (t :: ts).length)
        (run b ed ((t :: ts).map Typed.event)).dom.content
      = some (parent, before ++ (t :: ts).map (Typed.shape size), after) ∧
    Markup.withChildrenAt parent (before ++ (t :: ts).map (Typed.shape size) ++ after)
        ed.dom.content.markup
      = some (run b ed ((t :: ts).map Typed.event)).dom.content.markup := by
  obtain ⟨h1, h2, h3, h4, h5⟩ := typed_step b ed size p t parent before after hsize hne hsel
    hcaret hclean
  have hlen : (before ++ [t.shape size]).length = before.length + 1 := by simp
  rw [← hlen] at h2 h3
  obtain ⟨-, -, k3, k4⟩ := typed_run b size hne parent after ts (handle b ed t.event)
    (before ++ [t.shape size]) h1 h2 h3 h4
  have hrun : run b ed ((t :: ts).map Typed.event)
      = run b (handle b ed t.event) (ts.map Typed.event) := rfl
  have hn : (before ++ [t.shape size]).length + ts.length
      = before.length + (t :: ts).length := by
    simp only [List.length_append, List.length_cons, List.length_nil]
    omega
  have hl : before ++ [t.shape size] ++ ts.map (Typed.shape size)
      = before ++ (t :: ts).map (Typed.shape size) := by simp
  rw [hn] at k3
  rw [hl] at k3
  rw [hl, withChildrenAt_again parent _ _ _ _ h5] at k4
  rw [hrun]
  exact ⟨k3, k4⟩

/-- Typing with the caret outside every legacy size tag, for any document: the
new nodes are at the caret in event order, the caret is right after the last
one, and the neighbours without a legacy size tag are as they were. -/
theorem typed_run_outside (b : Browser) (size : Str) (hne : size ≠ []) (parent : List Nat)
    (ts : List Typed) :
    ∀ (ed : Editor) (p : Point) (before after : List Markup) (t : Typed),
      ed.currentFontSize = .str size →
      ed.dom.selection = some (Range.at p) →
      Node.caret p.path p.offset ed.dom.content = some (parent, before, after) →
      Node.insideFont p.path ed.dom.content = false →
      (∀ x ∈ ed.dom.content.nodes, x.id < ed.dom.nextId) →
      (∀ x ∈ ed.dom.content.nodes, ∀ y ∈ ed.dom.content.nodes,
        x.id = y.id → x.isFontSize = y.isFontSize) →
      (run b ed ((t :: ts).map Typed.event)).currentFontSize = .str size ∧
      (run b ed ((t :: ts).map Typed.event)).dom.selection
        = some (Range.at ⟨parent, before.length + (t :: ts).length⟩) ∧
      ∃ before' after',
        Node.caret parent (before.length + (t :: ts).length)
            (run b ed ((t :: ts).map Typed.event)).dom.content
          = some (parent, before' ++ (t :: ts).map (Typed.shape size), after') ∧
        (before'.length = before.length ∧
          ∀ (k : Nat) (m : Markup), before[k]? = some m → m.hasFont = false →
            before'[k]? = some m) ∧
        (after'.length = after.length ∧
          ∀ (k : Nat) (m : Markup), after[k]? = some m → m.hasFont = false →
            after'[k]? = some m) := by
  induction ts with
  | nil =>
    intro ed p before after t hsize hsel hcaret hout hb hfb
    obtain ⟨h1, h2, h3, -, -, -⟩ := typed_step_outside b ed size p t parent before after
      hsize hne hsel hcaret hout hb hfb
    exact ⟨h1, h2, h3⟩
  | cons t' ts ih =>
    intro ed p before after t hsize hsel hcaret hout hb hfb
    obtain ⟨h1, h2, ⟨b₁, a₁, hc₁, ⟨kb₁, kb₁'⟩, ⟨ka₁, ka₁'⟩⟩, hout', hb', hfb'⟩ :=
      typed_step_outside b ed size p t parent before after hsize hne hsel hcaret hout hb hfb
    have hlen : (b₁ ++ [t.shape size]).length = before.length + 1 := by
      rw [List.length_append, kb₁]
      rfl
    rw [← hlen] at h2 hc₁
    obtain ⟨r1, r2, b₂, a₂, hc₂, ⟨kb₂, kb₂'⟩, ⟨ka₂, ka₂'⟩⟩ :=
      ih (handle b ed t.event) ⟨parent, (b₁ ++ [t.shape size]).length⟩ (b₁ ++ [t.shape size])
        a₁ t' h1 h2 hc₁ hout' hb' hfb'
    have hrun : run b ed ((t :: t' :: ts).map Typed.event)
        = run b (handle b ed t.event) ((t' :: ts).map Typed.event) := rfl
    have hn : (b₁ ++ [t.shape size]).length + (t' :: ts).length
        = before.length + (t :: t' :: ts).length := by
      rw [hlen]
      simp only [List.length_cons]
      omega
    have hshape : b₂[before.length]? = some (t.shape size) := by
      apply kb₂' before.length (t.shape size) _ (shape_hasFont size t)
      rw [← kb₁, List.getElem?_append_right (Nat.le_refl _), Nat.sub_self]
      exact List.getElem?_cons_zero
    have hb₂ : b₂ = b₂.take before.length ++ [t.shape size] := by
      have h := List.take_succ (l := b₂) (n := before.length)
      rw [hshape, List.take_of_length_le (by omega)] at h
      exact h
    rw [hrun]
    rw [hn] at r2 hc₂
    refine ⟨r1, r2, b₂.take before.length, a₂, ?_, ⟨?_, ?_⟩, ⟨?_, ?_⟩⟩
    · rw [hc₂]
      conv_lhs => rw [hb₂]
      simp only [List.append_assoc, List.singleton_append, List.map_cons]
    · rw [List.length_take]
      omega
    · intro k m hk hm
      have hklt : k < before.length := by
        by_contra hge
        rw [List.getElem?_eq_none (Nat.le_of_not_lt hge)] at hk
        simp at hk
      have h₁ := kb₁' k m hk hm
      have h₂ := kb₂' k m (by rw [List.getElem?_append_left (by omega), h₁]) hm
      rw [List.getElem?_take_of_lt hklt, h₂]
    · rw [ka₂, ka₁]
    · intro k m hk hm
      exact ka₂' k m (ka₁' k m hk hm) hm

theorem fontById_of_nodup (t : Node) (h : (t.nodes.map Node.id).Nodup) :
    ∀ x ∈ t.nodes, ∀ y ∈ t.nodes, x.id = y.id → x.isFontSize = y.isFontSize := by
  intro x hx y hy hxy
  rw [List.inj_on_of_nodup_map h hx hy hxy]

/-- C6, amended. Sticky-size persistence: take the sticky size `size` and a
collapsed caret that is not inside a legacy size tag (no node on the way from
`.content` down to the caret's container matches `font[size]`), between two
nodes or inside a text node, with the markup `before` left of it and `after`
right of it under its parent; the identities of the nodes of `.content` are
distinct and below the next unused one, as in every document.  After any
sequence `t :: ts` of text-insertion and paragraph-insertion events the sticky
size is still `size`; the caret is collapsed right after the last inserted node;
left of it are as many nodes as `before` has and then one node per event in
event order (a `span` with font size `size` around exactly the inserted text, or
one `br`), right of it as many nodes as `after` has, and every node of `before`
and `after` that holds no legacy size tag is at its place unchanged; and when
the document holds no legacy size tag at all, it is afterwards the document
before the events with exactly these children under that parent. -/
theorem sticky_size_persistence (b : Browser) (ed : Editor) (size : Str) (p : Point)
    (parent : List Nat) (before after : List Markup) (t : Typed) (ts : List Typed)
    (hsize : ed.currentFontSize = .str size) (hne : size ≠ [])
    (hsel : ed.dom.selection = some (Range.at p))
    (hcaret : Node.caret p.path p.offset ed.dom.content = some (parent, before, after))
    (hout : Node.insideFont p.path ed.dom.content = false)
    (hids : (ed.dom.content.nodes.map Node.id).Nodup)
    (hnext : ∀ x ∈ ed.dom.content.nodes, x.id < ed.dom.nextId) :
    (run b ed ((t :: ts).map Typed.event)).currentFontSize = .str size ∧
    (run b ed ((t :: ts).map Typed.event)).dom.selection
      = some (Range.at ⟨parent, before.length + (t :: ts).length⟩) ∧
    (∃ before' after',
      Node.caret parent (before.length + (t :: ts).length)
          (run b ed ((t :: ts).map Typed.event)).dom.content
        = some (parent, before' ++ (t :: ts).map (Typed.shape size), after') ∧
      (before'.length = before.length ∧
        ∀ (k : Nat) (m : Markup), before[k]? = some m → m.hasFont = false →
          before'[k]? = some m) ∧
      (after'.length = after.length ∧
        ∀ (k : Nat) (m : Markup), after[k]? = some m → m.hasFont = false →
          after'[k]? = some m)) ∧
    (querySelectorAll ed.dom.content = [] →
      Node.caret parent (before.length + (t :: ts).length)
          (run b ed ((t :: ts).map Typed.event)).dom.content
        = some (parent, before ++ (t :: ts).map (Typed.shape size), after) ∧
      Markup.withChildrenAt parent (before ++ (t :: ts).map (Typed.shape size) ++ after)
          ed.dom.content.markup
        = some (run b ed ((t :: ts).map Typed.event)).dom.content.markup) := by
  obtain ⟨h1, h2, h3⟩ := typed_run_outside b size hne parent ts ed p before after t hsize hsel
    hcaret hout hnext (fontById_of_nodup _ hids)
  exact ⟨h1, h2, h3, fun hclean =>
    typed_clean b ed size p parent before after t ts hsize hne hsel hcaret hclean⟩

/-- C6, amended, at `<font size="4">z</font>xy` with the caret between `x` and
`y`, typing `a`, `b`, Enter, `c` under 20px: the caret ends after the fourth new
node, and the document is then
`<span 20px>z</span>x<span 20px>a</span><span 20px>b</span><br><span 20px>c</span>y`. -/
theorem sticky_size_persistence_witness :
    (neighbourEditor.currentFontSize = .str "20px".toList ∧ "20px".toList ≠ [] ∧
      neighbourEditor.dom.selection = some (Range.at ⟨[1], 1⟩) ∧
      Node.caret [1] 1 neighbourEditor.dom.content
        = some ([], [.elem "font".toList [("size".toList, "4".toList)] [] [.text "z".toList],
            .text "x".toList], [.text "y".toList]) ∧
      Node.insideFont [1] neighbourEditor.dom.content = false ∧
      (neighbourEditor.dom.content.nodes.map Node.id).Nodup ∧
      ∀ x ∈ neighbourEditor.dom.content.nodes, x.id < neighbourEditor.dom.nextId) ∧
    (run idleBrowser neighbourEditor
      ([.text false "a".toList, .text false "b".toList, .paragraph,
        .text false "c".toList].map Typed.event)).dom.selection
      = some (Range.at ⟨[], 6⟩) ∧
    (run idleBrowser neighbourEditor
      ([.text false "a".toList, .text false "b".toList, .paragraph,
        .text false "c".toList].map Typed.event)).dom.content.markup
      = .elem "div".toList [] []
          [.elem "span".toList [] [("font-size".toList, "20px".toList)] [.text "z".toList],
           .text "x".toList,
           .elem "span".toList [] [("font-size".toList, "20px".toList)] [.text "a".toList],
           .elem "span".toList [] [("font-size".toList, "20px".toList)] [.text "b".toList],
           .elem "br".toList [] [] [],
           .elem "span".toList [] [("font-size".toList, "20px".toList)] [.text "c".toList],
           .text "y".toList] :=
  ⟨⟨rfl, by decide, rfl, rfl, rfl, by decide, by decide⟩,
   (sticky_size_persistence idleBrowser neighbourEditor "20px".toList ⟨[1], 1⟩ []
      [.elem "font".toList [("size".toList, "4".toList)] [] [.text "z".toList],
        .text "x".toList] [.text "y".toList] (.text false "a".toList)
      [.text false "b".toList, .paragraph, .text false "c".toList]
      rfl (by decide) rfl rfl rfl (by decide) (by decide)).2.1,
   rfl⟩

/-- In the text `xy` with the caret between `x` and `y`, typing `a`, `b`, Enter,
`c` under 20px gives three 20px containers with the line break between the
second and the third. -/
theorem sticky_size_on_plain_text :
    (run idleBrowser typingEditor
      ([.text false "a".toList, .text false "b".toList, .paragraph,
        .text false "c".toList].map Typed.event)).dom.content.markup
      = .elem "div".toList [] []
          [.text "x".toList,
           .elem "span".toList [] [("font-size".toList, "20px".toList)] [.text "a".toList],
           .elem "span".toList [] [("font-size".toList, "20px".toList)] [.text "b".toList],
           .elem "br".toList [] [] [],
           .elem "span".toList [] [("font-size".toList, "20px".toList)] [.text "c".toList],
           .text "y".toList] :=
  (Option.some.inj
    (typed_clean idleBrowser typingEditor "20px".toList ⟨[0], 1⟩ []
      [.text "x".toList] [.text "y".toList] (.text false "a".toList)
      [.text false "b".toList, .paragraph, .text false "c".toList]
      rfl (by decide) rfl rfl (by decide)).2).symm

theorem sizeMap_lookup (v s : Str) (h : sizeMap.lookup v = some s) :
    v ≠ [] ∧ s ≠ [] ∧ (v = "2".toList ∨ v = "3".toList ∨ v = "4".toList) := by
  by_cases h2 : v = "2".toList
  · subst h2
    have : s = "12px".toList := by
      have h' : sizeMap.lookup "2".toList = some "12px".toList := by decide
      rw [h'] at h
      exact (Option.some.inj h).symm
    subst this
    exact ⟨by decide, by decide, Or.inl rfl⟩
  · by_cases h3 : v = "3".toList
    · subst h3
      have : s = "16px".toList := by
        have h' : sizeMap.lookup "3".toList = some "16px".toList := by decide
        rw [h'] at h
        exact (Option.some.inj h).symm
      subst this
      exact ⟨by decide, by decide, Or.inr (Or.inl rfl)⟩
    · by_cases h4 : v = "4".toList
      · subst h4
        have : s = "20px".toList := by
          have h' : sizeMap.lookup "4".toList = some "20px".toList := by decide
          rw [h'] at h
          exact (Option.some.inj h).symm
        subst this
        exact ⟨by decide, by decide, Or.inr (Or.inr rfl)⟩
      · exfalso
        have hb2 : (v == "2".toList) = false := by simpa using h2
        have hb3 : (v == "3".toList) = false := by simpa using h3
        have hb4 : (v == "4".toList) = false := by simpa using h4
        simp only [sizeMap, List.lookup, hb2, hb3, hb4] at h
        exact absurd h (by simp)

theorem fontSizeChange_currentFontSize (b : Browser) (ed : Editor) (val : Str)
    (h : val ≠ []) :
    (fontSizeChange b ed val).currentFontSize = (sizeMapAt val).or .null := by
  cases val with
  | nil => exact absurd rfl h
  | cons c cs => rfl

/-- C7 as stated fails: from the sticky size 20px, a size selection with the
value `5`, under which `sizeMap` has nothing, leaves `currentFontSize` at
`null`, the default state. -/
theorem forced_size_left_on_unmapped_value :
    typingEditor.currentFontSize = .str "20px".toList ∧
    (handle idleBrowser typingEditor (.selectorChange "5".toList)).currentFontSize = .null := by
  exact ⟨rfl, by decide⟩

/-- C7, amended.  Once the sticky size is `size`: every event other than a size
selection (text insertion, paragraph insertion, bold, italic, underline and the
other listeners) leaves it `size`; a size selection with the empty value leaves
it `size`; and a size selection with a value `v` that is a key of `sizeMap`
(`2`, `3`, `4`) sets it to `sizeMap[v]`. -/
theorem forced_size_transitions (b : Browser) (ed : Editor) (size : Str)
    (hsize : ed.currentFontSize = .str size) :
    (∀ e : Event, (∀ v, e ≠ .selectorChange v) →
      (handle b ed e).currentFontSize = .str size) ∧
    (handle b ed (.selectorChange [])).currentFontSize = .str size ∧
    (∀ v s, sizeMap.lookup v = some s →
      (handle b ed (.selectorChange v)).currentFontSize = .str s) := by
  refine ⟨?_, ?_, ?_⟩
  · intro e he
    cases e with
    | selectorChange v => exact absurd rfl (he v)
    | contentBeforeinput inputType data =>
      exact (beforeinput_currentFontSize b ed inputType data).trans hsize
    | contentMouseup => exact (saveSelection_currentFontSize ed).trans hsize
    | contentKeyup => exact (saveSelection_currentFontSize ed).trans hsize
    | contentFocus => exact (saveSelection_currentFontSize ed).trans hsize
    | selectorMousedown => exact (saveSelection_currentFontSize ed).trans hsize
    | selectionchange => exact (saveSelection_currentFontSize ed).trans hsize
    | contentClick => exact (saveSelection_currentFontSize _).trans hsize
    | timeout =>
      simp only [handle]
      split <;> exact hsize
    | boldClick => exact hsize
    | italicClick => exact hsize
    | underlineClick => exact hsize
    | contentInput => exact hsize
  · exact hsize
  · intro v s hv
    obtain ⟨hv1, hs1, -⟩ := sizeMap_lookup v s hv
    show (fontSizeChange b ed v).currentFontSize = .str s
    rw [fontSizeChange_currentFontSize b ed v hv1]
    simp only [sizeMapAt, hv]
    cases s with
    | nil => exact absurd rfl hs1
    | cons c cs => rfl

/-- C7, amended, at the size selection `2` from the sticky size 20px. -/
theorem forced_size_transitions_witness :
    typingEditor.currentFontSize = .str "20px".toList ∧
    (handle idleBrowser typingEditor (.selectorChange "2".toList)).currentFontSize
      = .str "12px".toList :=
  ⟨rfl,
   (forced_size_transitions idleBrowser typingEditor "20px".toList rfl).2.2
      "2".toList "12px".toList (by decide)⟩

/-- A size selection with a name that `sizeMap` inherits, such as `constructor`,
finds a function there, and `currentFontSize` keeps that object: the listener of
`beforeinput` goes on intercepting. -/
theorem forced_size_on_inherited_name :
    (handle idleBrowser typingEditor (.selectorChange "constructor".toList)).currentFontSize
      = .object := by
  decide

/-- C4 fails on the code.  On `<font size="4">a<font size="2">b</font></font>`
one run of `replaceFontTags` leaves
`<span 20px>a<font size="2">b</font></span>`, where a legacy size tag is still
in the document; the second run changes the document again, to
`<span 20px>a<span 12px>b</span></span>`. -/
theorem replaceFontTags_not_idempotent_on_nested :
    (replaceFontTags nestedFonts).content.markup
      = .elem "div".toList [] []
          [.elem "span".toList [] [("font-size".toList, "20px".toList)]
            [.text "a".toList,
             .elem "font".toList [("size".toList, "2".toList)] [] [.text "b".toList]]] ∧
    (replaceFontTags (replaceFontTags nestedFonts)).content.markup
      = .elem "div".toList [] []
          [.elem "span".toList [] [("font-size".toList, "20px".toList)]
            [.text "a".toList,
             .elem "span".toList [] [("font-size".toList, "12px".toList)]
               [.text "b".toList]]] ∧
    (querySelectorAll (replaceFontTags nestedFonts).content).length = 1 ∧
    (querySelectorAll (replaceFontTags (replaceFontTags nestedFonts)).content).length = 0 ∧
    (replaceFontTags (replaceFontTags nestedFonts)).content.markup
      ≠ (replaceFontTags nestedFonts).content.markup := by
  refine ⟨rfl, rfl, by decide, by decide, ?_⟩
  intro h
  have h1 : (replaceFontTags nestedFonts).content.markup
      = .elem "div".toList [] []
          [.elem "span".toList [] [("font-size".toList, "20px".toList)]
            [.text "a".toList,
             .elem "font".toList [("size".toList, "2".toList)] [] [.text "b".toList]]] := rfl
  have h2 : (replaceFontTags (replaceFontTags nestedFonts)).content.markup
      = .elem "div".toList [] []
          [.elem "span".toList [] [("font-size".toList, "20px".toList)]
            [.text "a".toList,
             .elem "span".toList [] [("font-size".toList, "12px".toList)]
               [.text "b".toList]]] := rfl
  rw [h1, h2] at h
  simp at h

/-- Without nesting one run of `replaceFontTags` leaves no legacy size tag and a
second run changes nothing: `<font size="4">a</font><font size="9">b</font>`
becomes `<span 20px>a</span><span 16px>b</span>`. -/
theorem replaceFontTags_on_flat :
    (replaceFontTags flatFonts).content.markup
      = .elem "div".toList [] []
          [.elem "span".toList [] [("font-size".toList, "20px".toList)] [.text "a".toList],
           .elem "span".toList [] [("font-size".toList, "16px".toList)] [.text "b".toList]] ∧
    querySelectorAll (replaceFontTags flatFonts).content = [] ∧
    (replaceFontTags (replaceFontTags flatFonts)).content
      = (replaceFontTags flatFonts).content := by
  refine ⟨rfl, by decide, rfl⟩

end CloudNote
